import Mathlib

/-!
# Verification of the jb build tool's dependency-resolution core

Shallow embedding of the dependency resolution and build-graph subsystem of
the `jb` build tool, together with proofs of its specified properties.

Components modelled (from the Go sources):
* `project` package: module reference graph, `Module.GetModuleReferencesInBuildOrder`
  (depth-first post-order with cycle detection), `ModuleLoader.GetModule` caching.
* `maven` package: `POM` model, property expansion (`POM.Expand`),
  `LocalRepository.GetPOM` (parent inheritance, managed-dependency merging),
  `LocalRepository.getFile` (artifact cache with remote fallback).
* `java` package: `Builder.resolveDependency` / `Builder.getBuildDependencies`
  (transitive walk with scope filtering and first-wins conflict resolution),
  `Builder.Build` (fingerprint-gated build).

Go modules are heap objects compared by pointer identity; we represent them by
`Nat` identifiers.  Go maps used as sets are represented by `List` with
membership; Go `error` returns are represented by `Except`.
-/

namespace JB

/-! ## Module reference graph (project/module.go)

A loaded module graph: nodes are module identities (`Nat`, standing for the Go
pointer), and `g : Nat → List Nat` gives each module's `References` list (in
declaration order).  `Reaches g x y` holds when `y` is transitively referenced
from `x` through at least one edge. -/

/-- Transitive reachability through ≥ 1 `References` edges. -/
inductive Reaches (g : Nat → List Nat) : Nat → Nat → Prop
  | direct {x y : Nat} : y ∈ g x → Reaches g x y
  | step {x y z : Nat} : y ∈ g x → Reaches g y z → Reaches g x z

theorem Reaches.trans_edge {g : Nat → List Nat} {u c y : Nat}
    (h : Reaches g u c) (hy : y ∈ g c) : Reaches g u y := by
  induction h with
  | direct h => exact .step h (.direct hy)
  | step h _ ih => exact .step h (ih hy)

theorem Reaches.trans {g : Nat → List Nat} {x y z : Nat}
    (h1 : Reaches g x y) (h2 : Reaches g y z) : Reaches g x z := by
  induction h1 with
  | direct h => exact .step h h2
  | step h _ ih => exact .step h (ih h2)

/-- Errors of `GetModuleReferencesInBuildOrder`.  The Go function returns
`fmt.Errorf("circular reference detected for module %s", m.Name)`; we carry the
offending module itself.  `outOfFuel` is an artifact of the shallow embedding
(the Go recursion is bounded by the stack invariant); we prove it cannot occur
with the fuel supplied by the top-level entry point. -/
inductive BuildOrderErr where
  | circular (m : Nat)
  | outOfFuel
  deriving DecidableEq, Repr

/-- The mutable state of the Go closure `visit`: the `visited` map (as the list
of members) and the accumulated `result` slice. -/
structure VisitState where
  visited : List Nat
  result : List Nat
  deriving DecidableEq, Repr

mutual

/-- The Go closure `visit` from `Module.GetModuleReferencesInBuildOrder`:

```
if visited[m] { return nil }
if stack[m] { return fmt.Errorf("circular reference detected for module %s", m.Name) }
stack[m] = true
for _, ref := range m.References { if err := visit(ref); err != nil { return err } }
stack[m] = false
visited[m] = true
result = append(result, m)
```

The `stack` map is passed down (extended with `m` for the recursive calls)
rather than threaded through, because on every successful return the Go code
restores it to its entry value, and on error the whole computation aborts.
`visitList` is the `for` loop over `m.References`. -/
def visit (g : Nat → List Nat) (fuel : Nat) (stack : List Nat) (m : Nat)
    (s : VisitState) : Except BuildOrderErr VisitState :=
  match fuel with
  | 0 => .error .outOfFuel
  | f + 1 =>
    if m ∈ s.visited then .ok s
    else if m ∈ stack then .error (.circular m)
    else
      match visitList g f (m :: stack) (g m) s with
      | .error e => .error e
      | .ok s1 => .ok ⟨m :: s1.visited, s1.result ++ [m]⟩
termination_by (fuel, 0, 0)

/-- The `for _, ref := range ... { visit(ref) }` loop, propagating errors. -/
def visitList (g : Nat → List Nat) (fuel : Nat) (stack : List Nat)
    (ms : List Nat) (s : VisitState) : Except BuildOrderErr VisitState :=
  match ms with
  | [] => .ok s
  | c :: cs =>
    match visit g fuel stack c s with
    | .error e => .error e
    | .ok s1 => visitList g fuel stack cs s1
termination_by (fuel, 1, ms.length)

end

/-- `Module.GetModuleReferencesInBuildOrder`: visit every direct reference of
`m` with empty visited/stack/result, return the accumulated post-order.
`nodes` is the (finite) carrier of loaded modules; the fuel
`nodes.length + 1` is sufficient (proved below) because the Go recursion depth
is bounded by the number of distinct modules on the stack. -/
def GetModuleReferencesInBuildOrder (nodes : List Nat) (g : Nat → List Nat)
    (m : Nat) : Except BuildOrderErr (List Nat) :=
  match visitList g (nodes.length + 1) [] (g m) ⟨[], []⟩ with
  | .error e => .error e
  | .ok s => .ok s.result

/-! ### Inversion lemmas for the traversal -/

theorem visit_zero_not_ok {g : Nat → List Nat} {stack : List Nat} {m : Nat}
    {s s1 : VisitState} (h : visit g 0 stack m s = .ok s1) : False := by
  simp [visit] at h

theorem visit_ok_succ {g : Nat → List Nat} {f : Nat} {stack : List Nat}
    {m : Nat} {s s1 : VisitState} (h : visit g (f + 1) stack m s = .ok s1) :
    (m ∈ s.visited ∧ s1 = s) ∨
      (m ∉ s.visited ∧ m ∉ stack ∧
        ∃ s2, visitList g f (m :: stack) (g m) s = .ok s2 ∧
          s1 = ⟨m :: s2.visited, s2.result ++ [m]⟩) := by
  rw [visit] at h
  by_cases h1 : m ∈ s.visited
  · simp [h1] at h
    exact .inl ⟨h1, h.symm⟩
  · by_cases h2 : m ∈ stack
    · simp [h1, h2] at h
    · simp [h1, h2] at h
      cases hvl : visitList g f (m :: stack) (g m) s with
      | error e => rw [hvl] at h; simp at h
      | ok s2 =>
        rw [hvl] at h
        simp at h
        exact .inr ⟨h1, h2, s2, rfl, h.symm⟩

theorem visit_err_succ {g : Nat → List Nat} {f : Nat} {stack : List Nat}
    {m : Nat} {s : VisitState} {e : BuildOrderErr}
    (h : visit g (f + 1) stack m s = .error e) :
    m ∉ s.visited ∧
      ((m ∈ stack ∧ e = .circular m) ∨
        (m ∉ stack ∧ visitList g f (m :: stack) (g m) s = .error e)) := by
  rw [visit] at h
  by_cases h1 : m ∈ s.visited
  · simp [h1] at h
  · by_cases h2 : m ∈ stack
    · simp [h1, h2] at h
      exact ⟨h1, .inl ⟨h2, h.symm⟩⟩
    · simp [h1, h2] at h
      cases hvl : visitList g f (m :: stack) (g m) s with
      | error e2 =>
        rw [hvl] at h
        simp at h
        refine ⟨h1, .inr ⟨h2, ?_⟩⟩
        rw [← h]
      | ok s2 => rw [hvl] at h; simp at h

theorem visitList_ok_nil {g : Nat → List Nat} {fuel : Nat} {stack : List Nat}
    {s s1 : VisitState} (h : visitList g fuel stack [] s = .ok s1) : s1 = s := by
  rw [visitList] at h
  simp at h
  exact h.symm

theorem visitList_ok_cons {g : Nat → List Nat} {fuel : Nat} {stack : List Nat}
    {c : Nat} {cs : List Nat} {s s1 : VisitState}
    (h : visitList g fuel stack (c :: cs) s = .ok s1) :
    ∃ s2, visit g fuel stack c s = .ok s2 ∧ visitList g fuel stack cs s2 = .ok s1 := by
  rw [visitList] at h
  cases hv : visit g fuel stack c s with
  | error e => rw [hv] at h; simp at h
  | ok s2 =>
    rw [hv] at h
    exact ⟨s2, rfl, h⟩

theorem visitList_err_cons {g : Nat → List Nat} {fuel : Nat} {stack : List Nat}
    {c : Nat} {cs : List Nat} {s : VisitState} {e : BuildOrderErr}
    (h : visitList g fuel stack (c :: cs) s = .error e) :
    visit g fuel stack c s = .error e ∨
      ∃ s2, visit g fuel stack c s = .ok s2 ∧
        visitList g fuel stack cs s2 = .error e := by
  rw [visitList] at h
  cases hv : visit g fuel stack c s with
  | error e2 =>
    rw [hv] at h
    simp at h
    refine .inl ?_
    rw [← h]
  | ok s2 =>
    rw [hv] at h
    exact .inr ⟨s2, rfl, h⟩

/-! ### Invariants of the traversal -/

/-- The `visited` map only grows. -/
theorem visit_mono_all (g : Nat → List Nat) : ∀ fuel : Nat,
    (∀ stack m s s1, visit g fuel stack m s = .ok s1 →
      ∀ x, x ∈ s.visited → x ∈ s1.visited) ∧
    (∀ stack ms s s1, visitList g fuel stack ms s = .ok s1 →
      ∀ x, x ∈ s.visited → x ∈ s1.visited) := by
  intro fuel
  induction fuel with
  | zero =>
    refine ⟨fun stack m s s1 h => (visit_zero_not_ok h).elim, ?_⟩
    intro stack ms s s1 h x hx
    cases ms with
    | nil => rw [visitList_ok_nil h]; exact hx
    | cons c cs =>
      obtain ⟨s2, hv, _⟩ := visitList_ok_cons h
      exact (visit_zero_not_ok hv).elim
  | succ f ih =>
    have hv : ∀ stack m s s1, visit g (f + 1) stack m s = .ok s1 →
        ∀ x, x ∈ s.visited → x ∈ s1.visited := by
      intro stack m s s1 h x hx
      rcases visit_ok_succ h with ⟨_, rfl⟩ | ⟨_, _, s2, hvl, rfl⟩
      · exact hx
      · exact List.mem_cons_of_mem _ (ih.2 _ _ _ _ hvl x hx)
    refine ⟨hv, ?_⟩
    intro stack ms
    induction ms with
    | nil =>
      intro s s1 h x hx
      rw [visitList_ok_nil h]; exact hx
    | cons c cs ihms =>
      intro s s1 h x hx
      obtain ⟨s2, hvc, hrest⟩ := visitList_ok_cons h
      exact ihms s2 s1 hrest x (hv stack c s s2 hvc x hx)

/-- A successful `visit m` leaves `m` visited. -/
theorem visit_ok_visits {g : Nat → List Nat} {fuel : Nat} {stack : List Nat}
    {m : Nat} {s s1 : VisitState} (h : visit g fuel stack m s = .ok s1) :
    m ∈ s1.visited := by
  cases fuel with
  | zero => exact (visit_zero_not_ok h).elim
  | succ f =>
    rcases visit_ok_succ h with ⟨hm, rfl⟩ | ⟨_, _, s2, _, rfl⟩
    · exact hm
    · exact List.mem_cons_self _ _

/-- A successful visit of a whole reference list leaves every listed module
visited. -/
theorem visitList_ok_visits {g : Nat → List Nat} {fuel : Nat} :
    ∀ {stack : List Nat} {ms : List Nat} {s s1 : VisitState},
      visitList g fuel stack ms s = .ok s1 → ∀ c ∈ ms, c ∈ s1.visited := by
  intro stack ms
  induction ms with
  | nil => intro s s1 h c hc; simp at hc
  | cons c cs ihms =>
    intro s s1 h d hd
    obtain ⟨s2, hvc, hrest⟩ := visitList_ok_cons h
    rcases List.mem_cons.mp hd with rfl | hd
    · exact (visit_mono_all g fuel).2 _ _ _ _ hrest d (visit_ok_visits hvc)
    · exact ihms hrest d hd

/-- A module on the `stack` is never added to `visited` by the recursion
below it (success case): nodes are added only after they pass the
`m ∈ stack` guard, and deeper stacks extend shallower ones. -/
theorem visit_stack_avoid_all (g : Nat → List Nat) : ∀ fuel : Nat,
    (∀ stack m s s1, visit g fuel stack m s = .ok s1 →
      ∀ x ∈ stack, x ∉ s.visited → x ∉ s1.visited) ∧
    (∀ stack ms s s1, visitList g fuel stack ms s = .ok s1 →
      ∀ x ∈ stack, x ∉ s.visited → x ∉ s1.visited) := by
  intro fuel
  induction fuel with
  | zero =>
    refine ⟨fun stack m s s1 h => (visit_zero_not_ok h).elim, ?_⟩
    intro stack ms s s1 h x hxs hx
    cases ms with
    | nil => rw [visitList_ok_nil h]; exact hx
    | cons c cs =>
      obtain ⟨s2, hv, _⟩ := visitList_ok_cons h
      exact (visit_zero_not_ok hv).elim
  | succ f ih =>
    have hv : ∀ stack m s s1, visit g (f + 1) stack m s = .ok s1 →
        ∀ x ∈ stack, x ∉ s.visited → x ∉ s1.visited := by
      intro stack m s s1 h x hxs hx
      rcases visit_ok_succ h with ⟨_, rfl⟩ | ⟨_, hms, s2, hvl, rfl⟩
      · exact hx
      · intro hmem
        rcases List.mem_cons.mp hmem with rfl | hmem2
        · exact hms hxs
        · exact ih.2 _ _ _ _ hvl x (List.mem_cons_of_mem _ hxs) hx hmem2
    refine ⟨hv, ?_⟩
    intro stack ms
    induction ms with
    | nil =>
      intro s s1 h x hxs hx
      rw [visitList_ok_nil h]; exact hx
    | cons c cs ihms =>
      intro s s1 h x hxs hx
      obtain ⟨s2, hvc, hrest⟩ := visitList_ok_cons h
      exact ihms s2 s1 hrest x hxs (hv stack c s s2 hvc x hxs hx)

/-- A list is in dependency-first order for `g`: at every position, all
direct references of the element occur strictly earlier. -/
def TopoOK (g : Nat → List Nat) (l : List Nat) : Prop :=
  ∀ l1 x l2, l = l1 ++ x :: l2 → ∀ y ∈ g x, y ∈ l1

/-- The state invariant of the traversal: `visited` and `result` hold the same
modules, `result` has no duplicates, and `result` is dependency-first
ordered. -/
def GoodState (g : Nat → List Nat) (s : VisitState) : Prop :=
  (∀ x, x ∈ s.visited ↔ x ∈ s.result) ∧ s.result.Nodup ∧ TopoOK g s.result

theorem goodState_init (g : Nat → List Nat) : GoodState g ⟨[], []⟩ := by
  refine ⟨by simp, List.nodup_nil, ?_⟩
  intro l1 x l2 h
  exact absurd h (by simp)

/-- Decompose a split of `l ++ [m]`: either it ends at `m`, or it is a split
of `l`. -/
theorem append_singleton_split {l l1 l2 : List Nat} {x m : Nat}
    (h : l ++ [m] = l1 ++ x :: l2) :
    (l2 = [] ∧ l1 = l ∧ x = m) ∨ (∃ l3, l2 = l3 ++ [m] ∧ l = l1 ++ x :: l3) := by
  rcases l2.eq_nil_or_concat with rfl | ⟨l3, b, rfl⟩
  · have h5 := List.append_inj' h (by simp)
    refine .inl ⟨rfl, h5.1.symm, ?_⟩
    have h6 := h5.2
    simp at h6
    exact h6.symm
  · have h2 : l ++ [m] = (l1 ++ x :: l3) ++ [b] := by
      rw [h]; simp
    have h5 := List.append_inj' h2 (by simp)
    obtain ⟨h3, h4⟩ := h5
    simp at h4
    refine .inr ⟨l3, ?_, h3⟩
    rw [List.concat_eq_append, h4]

/-- `GoodState` is preserved by the traversal. -/
theorem visit_good_all (g : Nat → List Nat) : ∀ fuel : Nat,
    (∀ stack m s s1, visit g fuel stack m s = .ok s1 →
      GoodState g s → GoodState g s1) ∧
    (∀ stack ms s s1, visitList g fuel stack ms s = .ok s1 →
      GoodState g s → GoodState g s1) := by
  intro fuel
  induction fuel with
  | zero =>
    refine ⟨fun stack m s s1 h => (visit_zero_not_ok h).elim, ?_⟩
    intro stack ms s s1 h hg
    cases ms with
    | nil => rw [visitList_ok_nil h]; exact hg
    | cons c cs =>
      obtain ⟨s2, hv, _⟩ := visitList_ok_cons h
      exact (visit_zero_not_ok hv).elim
  | succ f ih =>
    have hv : ∀ stack m s s1, visit g (f + 1) stack m s = .ok s1 →
        GoodState g s → GoodState g s1 := by
      intro stack m s s1 h hg
      rcases visit_ok_succ h with ⟨_, rfl⟩ | ⟨hmv, hms, s2, hvl, rfl⟩
      · exact hg
      · obtain ⟨heq, hnd, htp⟩ := ih.2 _ _ _ _ hvl hg
        -- m was not visited before its children were processed, and it sits
        -- on the stack during that processing, so it is still unvisited.
        have hm2 : m ∉ s2.visited :=
          (visit_stack_avoid_all g f).2 _ _ _ _ hvl m (List.mem_cons_self _ _) hmv
        have hm2r : m ∉ s2.result := fun hc => hm2 ((heq m).mpr hc)
        refine ⟨?_, ?_, ?_⟩
        · intro x
          constructor
          · intro hx
            rcases List.mem_cons.mp hx with rfl | hx2
            · exact List.mem_append.mpr (.inr (List.mem_singleton_self _))
            · exact List.mem_append.mpr (.inl ((heq x).mp hx2))
          · intro hx
            rcases List.mem_append.mp hx with hx2 | hx2
            · exact List.mem_cons_of_mem _ ((heq x).mpr hx2)
            · rw [List.mem_singleton] at hx2
              exact hx2 ▸ List.mem_cons_self _ _
        · rw [List.nodup_append]
          exact ⟨hnd, List.nodup_singleton _, by
            intro a ha hb
            simp at hb
            exact hm2r (hb ▸ ha)⟩
        · intro l1 x l2 hsplit y hy
          rcases append_singleton_split hsplit with ⟨_, rfl, rfl⟩ | ⟨l3, _, hsp⟩
          · -- split at the new last element `m`: its children were all
            -- visited by the recursive calls.
            exact (heq y).mp (visitList_ok_visits hvl y hy)
          · exact htp l1 x l3 hsp y hy
    refine ⟨hv, ?_⟩
    intro stack ms
    induction ms with
    | nil =>
      intro s s1 h hg
      rw [visitList_ok_nil h]; exact hg
    | cons c cs ihms =>
      intro s s1 h hg
      obtain ⟨s2, hvc, hrest⟩ := visitList_ok_cons h
      exact ihms s2 s1 hrest (hv stack c s s2 hvc hg)

/-- Everything newly visited by `visit m` is `m` itself or transitively
referenced from `m`; for `visitList ms`, from some member of `ms`. -/
theorem visit_sound_all (g : Nat → List Nat) : ∀ fuel : Nat,
    (∀ stack m s s1, visit g fuel stack m s = .ok s1 →
      ∀ x ∈ s1.visited, x ∈ s.visited ∨ x = m ∨ Reaches g m x) ∧
    (∀ stack ms s s1, visitList g fuel stack ms s = .ok s1 →
      ∀ x ∈ s1.visited, x ∈ s.visited ∨ ∃ c ∈ ms, x = c ∨ Reaches g c x) := by
  intro fuel
  induction fuel with
  | zero =>
    refine ⟨fun stack m s s1 h => (visit_zero_not_ok h).elim, ?_⟩
    intro stack ms s s1 h x hx
    cases ms with
    | nil => rw [visitList_ok_nil h] at hx; exact .inl hx
    | cons c cs =>
      obtain ⟨s2, hv, _⟩ := visitList_ok_cons h
      exact (visit_zero_not_ok hv).elim
  | succ f ih =>
    have hv : ∀ stack m s s1, visit g (f + 1) stack m s = .ok s1 →
        ∀ x ∈ s1.visited, x ∈ s.visited ∨ x = m ∨ Reaches g m x := by
      intro stack m s s1 h x hx
      rcases visit_ok_succ h with ⟨_, rfl⟩ | ⟨_, _, s2, hvl, rfl⟩
      · exact .inl hx
      · rcases List.mem_cons.mp hx with rfl | hx2
        · exact .inr (.inl rfl)
        · rcases ih.2 _ _ _ _ hvl x hx2 with hold | ⟨c, hc, rfl | hr⟩
          · exact .inl hold
          · exact .inr (.inr (.direct hc))
          · exact .inr (.inr (.step hc hr))
    refine ⟨hv, ?_⟩
    intro stack ms
    induction ms with
    | nil =>
      intro s s1 h x hx
      rw [visitList_ok_nil h] at hx; exact .inl hx
    | cons c cs ihms =>
      intro s s1 h x hx
      obtain ⟨s2, hvc, hrest⟩ := visitList_ok_cons h
      rcases ihms s2 s1 hrest x hx with h2 | ⟨d, hd, hxd⟩
      · rcases hv stack c s s2 hvc x h2 with hold | hcd
        · exact .inl hold
        · exact .inr ⟨c, List.mem_cons_self _ _, hcd⟩
      · exact .inr ⟨d, List.mem_cons_of_mem _ hd, hxd⟩

theorem visit_zero_eq {g : Nat → List Nat} {stack : List Nat} {m : Nat}
    {s : VisitState} : visit g 0 stack m s = .error .outOfFuel := by
  simp [visit]

/-- A `circular` error names a module that really lies on a reference cycle
reachable from the root `r`.  The hypotheses record the stack discipline:
every module on the stack transitively references the one being visited. -/
theorem visit_circular_all (g : Nat → List Nat) (r : Nat) : ∀ fuel : Nat,
    (∀ stack m s w, visit g fuel stack m s = .error (.circular w) →
      (∀ u ∈ stack, Reaches g u m) → Reaches g r m →
      Reaches g w w ∧ Reaches g r w) ∧
    (∀ stack ms s w, visitList g fuel stack ms s = .error (.circular w) →
      (∀ c ∈ ms, (∀ u ∈ stack, Reaches g u c) ∧ Reaches g r c) →
      Reaches g w w ∧ Reaches g r w) := by
  intro fuel
  induction fuel with
  | zero =>
    constructor
    · intro stack m s w h
      rw [visit_zero_eq] at h
      simp at h
    · intro stack ms s w h hms
      cases ms with
      | nil => rw [visitList] at h; simp at h
      | cons c cs =>
        rcases visitList_err_cons h with hv | ⟨s2, hv, _⟩
        · rw [visit_zero_eq] at hv; simp at hv
        · exact (visit_zero_not_ok hv).elim
  | succ f ih =>
    have hv : ∀ stack m s w, visit g (f + 1) stack m s = .error (.circular w) →
        (∀ u ∈ stack, Reaches g u m) → Reaches g r m →
        Reaches g w w ∧ Reaches g r w := by
      intro stack m s w h hstack hroot
      obtain ⟨-, h2⟩ := visit_err_succ h
      rcases h2 with ⟨hmem, heq⟩ | ⟨hnmem, hvl⟩
      · cases heq
        exact ⟨hstack m hmem, hroot⟩
      · refine ih.2 _ _ _ _ hvl ?_
        intro c hc
        refine ⟨?_, hroot.trans_edge hc⟩
        intro u hu
        rcases List.mem_cons.mp hu with rfl | hu2
        · exact .direct hc
        · exact (hstack u hu2).trans_edge hc
    refine ⟨hv, ?_⟩
    intro stack ms
    induction ms with
    | nil =>
      intro s w h
      rw [visitList] at h; simp at h
    | cons c cs ihms =>
      intro s w h hms
      rcases visitList_err_cons h with hvc | ⟨s2, hvc, hrest⟩
      · exact hv stack c s w hvc (hms c (List.mem_cons_self _ _)).1
          (hms c (List.mem_cons_self _ _)).2
      · exact ihms s2 w hrest fun d hd => hms d (List.mem_cons_of_mem _ hd)

/-- Fuel sufficiency: the Go recursion depth is bounded by the number of
loaded modules, because the stack holds distinct modules of the carrier.
With fuel exceeding `nodes.length - stack.length` the artificial
`outOfFuel` error cannot occur. -/
theorem visit_fuel_all (nodes : List Nat) (g : Nat → List Nat)
    (hcl : ∀ x ∈ nodes, ∀ y ∈ g x, y ∈ nodes) : ∀ fuel : Nat,
    (∀ stack m s, stack.Nodup → (∀ x ∈ stack, x ∈ nodes) → m ∈ nodes →
      nodes.length + 1 ≤ fuel + stack.length →
      visit g fuel stack m s ≠ .error .outOfFuel) ∧
    (∀ stack ms s, stack.Nodup → (∀ x ∈ stack, x ∈ nodes) →
      (∀ c ∈ ms, c ∈ nodes) →
      nodes.length + 1 ≤ fuel + stack.length →
      visitList g fuel stack ms s ≠ .error .outOfFuel) := by
  intro fuel
  induction fuel with
  | zero =>
    have hlen : ∀ stack : List Nat, stack.Nodup → (∀ x ∈ stack, x ∈ nodes) →
        ¬ (nodes.length + 1 ≤ stack.length) := by
      intro stack hnd hsub hle
      have : stack.length ≤ nodes.length :=
        (List.Nodup.subperm hnd fun {x} hx => hsub x hx).length_le
      omega
    constructor
    · intro stack m s hnd hsub _ hle
      exact absurd (by simpa using hle) (hlen stack hnd hsub)
    · intro stack ms s hnd hsub _ hle
      exact absurd (by simpa using hle) (hlen stack hnd hsub)
  | succ f ih =>
    have hv : ∀ stack m s, stack.Nodup → (∀ x ∈ stack, x ∈ nodes) →
        m ∈ nodes → nodes.length + 1 ≤ (f + 1) + stack.length →
        visit g (f + 1) stack m s ≠ .error .outOfFuel := by
      intro stack m s hnd hsub hm hle h
      obtain ⟨-, h2⟩ := visit_err_succ h
      rcases h2 with ⟨-, heq⟩ | ⟨hnmem, hvl⟩
      · cases heq
      · refine ih.2 (m :: stack) (g m) s ?_ ?_ ?_ ?_ hvl
        · exact List.nodup_cons.mpr ⟨hnmem, hnd⟩
        · intro x hx
          rcases List.mem_cons.mp hx with rfl | hx2
          · exact hm
          · exact hsub x hx2
        · exact fun c hc => hcl m hm c hc
        · simp only [List.length_cons]
          omega
    refine ⟨hv, ?_⟩
    intro stack ms
    induction ms with
    | nil =>
      intro s hnd hsub hms hle h
      rw [visitList] at h; simp at h
    | cons c cs ihms =>
      intro s hnd hsub hms hle h
      rcases visitList_err_cons h with hvc | ⟨s2, hvc, hrest⟩
      · exact hv stack c s hnd hsub (hms c (List.mem_cons_self _ _)) hle hvc
      · exact ihms s2 hnd hsub (fun d hd => hms d (List.mem_cons_of_mem _ hd))
          hle hrest

/-! ### From the traversal invariant to ordering and completeness -/

theorem topoOK_closed {g : Nat → List Nat} {l : List Nat} (h : TopoOK g l)
    {x y : Nat} (hx : x ∈ l) (hy : y ∈ g x) : y ∈ l := by
  obtain ⟨l1, l2, rfl⟩ := List.append_of_mem hx
  exact List.mem_append.mpr (.inl (h l1 x l2 rfl y hy))

theorem topoOK_reach_mem {g : Nat → List Nat} {l : List Nat} (h : TopoOK g l)
    {x y : Nat} (hx : x ∈ l) (hr : Reaches g x y) : y ∈ l := by
  induction hr with
  | direct hd => exact topoOK_closed h hx hd
  | step hd _ ih => exact ih (topoOK_closed h hx hd)

theorem indexOf_split : ∀ (l1 l2 : List Nat) (x : Nat),
    (l1 ++ x :: l2).Nodup → (l1 ++ x :: l2).indexOf x = l1.length := by
  intro l1
  induction l1 with
  | nil => intro l2 x _; simp
  | cons a l1 ih =>
    intro l2 x hnd
    have hnd2 := List.nodup_cons.mp hnd
    have hax : a ≠ x := by
      intro hc
      exact hnd2.1 (hc ▸ List.mem_append.mpr (.inr (List.mem_cons_self _ _)))
    simp only [List.cons_append, List.length_cons]
    rw [List.indexOf_cons_ne _ hax, ih l2 x hnd2.2]

theorem indexOf_mem_left : ∀ (l1 l2 : List Nat) (x y : Nat),
    (l1 ++ x :: l2).Nodup → y ∈ l1 →
    (l1 ++ x :: l2).indexOf y < l1.length := by
  intro l1
  induction l1 with
  | nil => intro l2 x y _ hy; simp at hy
  | cons a l1 ih =>
    intro l2 x y hnd hy
    have hnd2 := List.nodup_cons.mp hnd
    rcases List.mem_cons.mp hy with rfl | hy2
    · simp
    · have hay : a ≠ y := by
        intro hc
        exact hnd2.1 (hc ▸ List.mem_append.mpr (.inl hy2))
      simp only [List.cons_append, List.length_cons]
      rw [List.indexOf_cons_ne _ hay]
      exact Nat.succ_lt_succ (ih l2 x y hnd2.2 hy2)

theorem topoOK_order_direct {g : Nat → List Nat} {l : List Nat}
    (htp : TopoOK g l) (hnd : l.Nodup) {x y : Nat} (hx : x ∈ l)
    (hd : y ∈ g x) : l.indexOf y < l.indexOf x := by
  obtain ⟨l1, l2, hsp⟩ := List.append_of_mem hx
  have hy := htp l1 _ l2 hsp _ hd
  subst hsp
  calc (l1 ++ x :: l2).indexOf y < l1.length := indexOf_mem_left l1 l2 x y hnd hy
  _ = (l1 ++ x :: l2).indexOf x := (indexOf_split l1 l2 x hnd).symm

/-- In a `Nodup` dependency-first list, every module appears strictly after
everything it transitively references. -/
theorem topoOK_order {g : Nat → List Nat} {l : List Nat} (htp : TopoOK g l)
    (hnd : l.Nodup) {x y : Nat} (hx : x ∈ l) (hr : Reaches g x y) :
    l.indexOf y < l.indexOf x := by
  induction hr with
  | direct hd => exact topoOK_order_direct htp hnd hx hd
  | @step u v z hd hr2 ih =>
    have hmem := topoOK_closed htp hx hd
    have h1 := ih hmem
    have h2 := topoOK_order_direct htp hnd hx hd
    omega

/-- C1 assembled over a successful run (no acyclicity needed). -/
theorem buildOrder_ok_facts {nodes : List Nat} {g : Nat → List Nat} {m0 : Nat}
    {l : List Nat} (h : GetModuleReferencesInBuildOrder nodes g m0 = .ok l) :
    (∀ x, x ∈ l ↔ Reaches g m0 x) ∧ l.Nodup ∧
      (∀ x ∈ l, ∀ y, Reaches g x y → l.indexOf y < l.indexOf x) := by
  rw [GetModuleReferencesInBuildOrder] at h
  cases hrun : visitList g (nodes.length + 1) [] (g m0) ⟨[], []⟩ with
  | error e => rw [hrun] at h; simp at h
  | ok s =>
    rw [hrun] at h
    simp at h
    subst h
    obtain ⟨heq, hnd, htp⟩ :=
      (visit_good_all g (nodes.length + 1)).2 _ _ _ _ hrun (goodState_init g)
    have hdir : ∀ c ∈ g m0, c ∈ s.result := fun c hc =>
      (heq c).mp (visitList_ok_visits hrun c hc)
    have hsound : ∀ x ∈ s.result, Reaches g m0 x := by
      intro x hx
      rcases (visit_sound_all g (nodes.length + 1)).2 _ _ _ _ hrun x
          ((heq x).mpr hx) with hold | ⟨c, hc, rfl | hr⟩
      · simp at hold
      · exact .direct hc
      · exact .step hc hr
    have hcompl : ∀ x, Reaches g m0 x → x ∈ s.result := by
      intro x hr
      cases hr with
      | direct hd => exact hdir _ hd
      | step hd hr2 => exact topoOK_reach_mem htp (hdir _ hd) hr2
    exact ⟨fun x => ⟨hsound x, hcompl x⟩, hnd,
      fun x hx y hr => topoOK_order htp hnd hx hr⟩

/-! ### Claims C1 and C2 -/

/-- C1: For every module whose local-reference graph is acyclic,
`GetModuleReferencesInBuildOrder` succeeds and returns a list containing
every transitively referenced module exactly once (membership iff
reachability, no duplicates), not containing the module itself, and in which
every module appears strictly after all modules it transitively references.
The claim's concrete instance (A references B, B references C, C nothing ⇒
result `[C, B]`) is established by the witness below. -/
theorem claim_C1_buildOrder_acyclic (nodes : List Nat) (g : Nat → List Nat)
    (m0 : Nat) (hm0 : m0 ∈ nodes)
    (hcl : ∀ x ∈ nodes, ∀ y ∈ g x, y ∈ nodes)
    (hacyc : ∀ x, (x = m0 ∨ Reaches g m0 x) → ¬ Reaches g x x) :
    ∃ l, GetModuleReferencesInBuildOrder nodes g m0 = .ok l ∧
      (∀ x, x ∈ l ↔ Reaches g m0 x) ∧ l.Nodup ∧ m0 ∉ l ∧
      (∀ x ∈ l, ∀ y, Reaches g x y → l.indexOf y < l.indexOf x) := by
  cases hrun : visitList g (nodes.length + 1) [] (g m0) ⟨[], []⟩ with
  | error e =>
    exfalso
    cases e with
    | circular w =>
      obtain ⟨hww, hrw⟩ := (visit_circular_all g m0 (nodes.length + 1)).2
        [] (g m0) ⟨[], []⟩ w hrun
        (fun c hc => ⟨fun u hu => absurd hu (List.not_mem_nil u), .direct hc⟩)
      exact hacyc w (.inr hrw) hww
    | outOfFuel =>
      exact (visit_fuel_all nodes g hcl (nodes.length + 1)).2
        [] (g m0) ⟨[], []⟩ List.nodup_nil
        (fun x hx => absurd hx (List.not_mem_nil x))
        (fun c hc => hcl m0 hm0 c hc) (by simp) hrun
  | ok s =>
    have hres : GetModuleReferencesInBuildOrder nodes g m0 = .ok s.result := by
      rw [GetModuleReferencesInBuildOrder, hrun]
    obtain ⟨hmem, hnodup, horder⟩ := buildOrder_ok_facts hres
    refine ⟨s.result, hres, hmem, hnodup, ?_, horder⟩
    intro hm0mem
    exact hacyc m0 (.inl rfl) ((hmem m0).mp hm0mem)

/-- The example reference graph of C1: module 0 (A) references 1 (B),
module 1 references 2 (C), module 2 references nothing. -/
def exampleChainRefs : Nat → List Nat :=
  fun n => if n = 0 then [1] else if n = 1 then [2] else []

/-- In a graph whose edges strictly increase, reachability strictly
increases; hence no node lies on a cycle. -/
theorem reaches_lt {g : Nat → List Nat} (hg : ∀ x y, y ∈ g x → x < y)
    {x y : Nat} (h : Reaches g x y) : x < y := by
  induction h with
  | direct hd => exact hg _ _ hd
  | step hd _ ih => exact Nat.lt_trans (hg _ _ hd) ih

theorem exampleChainRefs_increasing : ∀ x y, y ∈ exampleChainRefs x → x < y := by
  intro x y hy
  by_cases h0 : x = 0
  · subst h0; simp [exampleChainRefs] at hy; omega
  · by_cases h1 : x = 1
    · subst h1; simp [exampleChainRefs] at hy; omega
    · simp [exampleChainRefs, h0, h1] at hy

/-- Witness for C1 on the spec's example graph, additionally computing the
concrete build order `[C, B] = [2, 1]`. -/
theorem claim_C1_witness :
    (∃ l, GetModuleReferencesInBuildOrder [0, 1, 2] exampleChainRefs 0 = .ok l ∧
      (∀ x, x ∈ l ↔ Reaches exampleChainRefs 0 x) ∧ l.Nodup ∧ 0 ∉ l ∧
      (∀ x ∈ l, ∀ y, Reaches exampleChainRefs x y →
        l.indexOf y < l.indexOf x)) ∧
    GetModuleReferencesInBuildOrder [0, 1, 2] exampleChainRefs 0 = .ok [2, 1] := by
  constructor
  · refine claim_C1_buildOrder_acyclic [0, 1, 2] exampleChainRefs 0
      (by decide) ?_ ?_
    · intro x hx y hy
      by_cases h0 : x = 0
      · subst h0; simp [exampleChainRefs] at hy; simp [hy]
      · by_cases h1 : x = 1
        · subst h1; simp [exampleChainRefs] at hy; simp [hy]
        · simp [exampleChainRefs, h0, h1] at hy
    · intro x _ hxx
      exact absurd (reaches_lt exampleChainRefs_increasing hxx) (Nat.lt_irrefl x)
  · simp [GetModuleReferencesInBuildOrder, visit, visitList, exampleChainRefs]

/-- C2: For every module from which a reference cycle is reachable,
`GetModuleReferencesInBuildOrder` returns a circular-reference error naming
an offending module (one that really lies on a cycle), and — the return
being an `error` — no partial result list. -/
theorem claim_C2_buildOrder_cycle_error (nodes : List Nat)
    (g : Nat → List Nat) (m0 : Nat) (hm0 : m0 ∈ nodes)
    (hcl : ∀ x ∈ nodes, ∀ y ∈ g x, y ∈ nodes)
    (hcyc : ∃ x, (x = m0 ∨ Reaches g m0 x) ∧ Reaches g x x) :
    ∃ w, GetModuleReferencesInBuildOrder nodes g m0 = .error (.circular w) ∧
      Reaches g w w := by
  cases hrun : visitList g (nodes.length + 1) [] (g m0) ⟨[], []⟩ with
  | error e =>
    cases e with
    | circular w =>
      obtain ⟨hww, -⟩ := (visit_circular_all g m0 (nodes.length + 1)).2
        [] (g m0) ⟨[], []⟩ w hrun
        (fun c hc => ⟨fun u hu => absurd hu (List.not_mem_nil u), .direct hc⟩)
      exact ⟨w, by rw [GetModuleReferencesInBuildOrder, hrun], hww⟩
    | outOfFuel =>
      exact absurd hrun ((visit_fuel_all nodes g hcl (nodes.length + 1)).2
        [] (g m0) ⟨[], []⟩ List.nodup_nil
        (fun x hx => absurd hx (List.not_mem_nil x))
        (fun c hc => hcl m0 hm0 c hc) (by simp))
  | ok s =>
    exfalso
    have hres : GetModuleReferencesInBuildOrder nodes g m0 = .ok s.result := by
      rw [GetModuleReferencesInBuildOrder, hrun]
    obtain ⟨hmem, hnodup, horder⟩ := buildOrder_ok_facts hres
    obtain ⟨x, hx0, hxx⟩ := hcyc
    have hxmem : x ∈ s.result := by
      rcases hx0 with rfl | hr
      · exact (hmem x).mpr hxx
      · exact (hmem x).mpr hr
    exact absurd (horder x hxmem x hxx) (Nat.lt_irrefl _)

/-- The example cyclic graph of C2: module 0 (A) references 1 (B) and module
1 references 0. -/
def exampleCycleRefs : Nat → List Nat :=
  fun n => if n = 0 then [1] else if n = 1 then [0] else []

/-- Witness for C2 on the spec's A→B→A example.  The concrete run yields
`circular 1`: the Go code reports "circular reference detected for module B",
the module at which the traversal re-entered its own stack. -/
theorem claim_C2_witness :
    ∃ w, GetModuleReferencesInBuildOrder [0, 1] exampleCycleRefs 0 =
        .error (.circular w) ∧ Reaches exampleCycleRefs w w := by
  refine claim_C2_buildOrder_cycle_error [0, 1] exampleCycleRefs 0
    (by decide) ?_ ?_
  · intro x hx y hy
    by_cases h0 : x = 0
    · subst h0; simp [exampleCycleRefs] at hy; simp [hy]
    · by_cases h1 : x = 1
      · subst h1; simp [exampleCycleRefs] at hy; simp [hy]
      · simp [exampleCycleRefs, h0, h1] at hy
  · refine ⟨0, .inl rfl, ?_⟩
    exact .step (x := 0) (y := 1) (by simp [exampleCycleRefs])
      (.direct (by simp [exampleCycleRefs]))

/-! ## ModuleLoader.GetModule and its cache (project/module.go)

The loader keeps `modules map[string]*Module`.  `GetModule` *looks up* this
map by the normalized absolute module-file path, but *stores* new entries
under `module.Name` (the base name of the module directory).  We model
pointers by allocation order: the loader state carries a heap of allocated
modules, and `GoModule.id` is the allocation index, so "same instance" is
"same id".  The filesystem (`os.Stat`, reading and JSON-decoding the module
file plus the `loadModuleFile` defaulting/validation) is abstracted by
`LoaderFS` oracles; paths are slash-separated absolute strings. -/

/-- Kernel-computable rendition of `strings.Split` on a single-character
separator, over the character list of a string.  (Lean's own
`String.splitOn` does not reduce in the kernel, so the model carries its
own splitter with the same semantics for one-character separators.) -/
def splitOnChar (sep : Char) : List Char → List (List Char)
  | [] => [[]]
  | c :: rest =>
    let r := splitOnChar sep rest
    if c = sep then [] :: r
    else (c :: r.headD []) :: r.tail

/-- `strings.Join` / `filepath.Join` companion of `splitOnChar`. -/
def joinChar (sep : Char) : List (List Char) → List Char
  | [] => []
  | [x] => x
  | x :: xs => x ++ sep :: joinChar sep xs

/-- `strings.HasSuffix` on character lists. -/
def endsWithChars (s suf : List Char) : Bool :=
  suf.length ≤ s.length ∧ s.drop (s.length - suf.length) = suf

/-- `project.Dependency`: raw coordinates, parsed fields, resolved cache
path (empty until resolved) and transitive children (empty until resolved;
Go's `nil` slice and empty slice are identified). -/
inductive Dep where
  | mk (coordinates group artifact version path : String)
      (transitive : List Dep)

mutual

def Dep.decEq : (a b : Dep) → Decidable (a = b)
  | .mk c1 g1 a1 v1 p1 t1, .mk c2 g2 a2 v2 p2 t2 =>
    if h1 : c1 = c2 then
      if h2 : g1 = g2 then
        if h3 : a1 = a2 then
          if h4 : v1 = v2 then
            if h5 : p1 = p2 then
              match Dep.decEqList t1 t2 with
              | isTrue h6 => isTrue (by rw [h1, h2, h3, h4, h5, h6])
              | isFalse h6 => isFalse (fun hc => h6 (by injection hc))
            else isFalse (fun hc => h5 (by injection hc))
          else isFalse (fun hc => h4 (by injection hc))
        else isFalse (fun hc => h3 (by injection hc))
      else isFalse (fun hc => h2 (by injection hc))
    else isFalse (fun hc => h1 (by injection hc))

def Dep.decEqList : (xs ys : List Dep) → Decidable (xs = ys)
  | [], [] => isTrue rfl
  | [], _ :: _ => isFalse (by intro hc; exact List.noConfusion hc)
  | _ :: _, [] => isFalse (by intro hc; exact List.noConfusion hc)
  | x :: xs, y :: ys =>
    match Dep.decEq x y, Dep.decEqList xs ys with
    | isTrue h1, isTrue h2 => isTrue (by rw [h1, h2])
    | isFalse h1, _ => isFalse (fun hc => h1 (by injection hc))
    | isTrue _, isFalse h2 => isFalse (fun hc => h2 (by injection hc))

end

instance : DecidableEq Dep := Dep.decEq

def Dep.coordinates : Dep → String
  | ⟨c, _, _, _, _, _⟩ => c

def Dep.group : Dep → String
  | ⟨_, g, _, _, _, _⟩ => g

def Dep.artifact : Dep → String
  | ⟨_, _, a, _, _, _⟩ => a

def Dep.version : Dep → String
  | ⟨_, _, _, v, _, _⟩ => v

def Dep.path : Dep → String
  | ⟨_, _, _, _, p, _⟩ => p

def Dep.transitive : Dep → List Dep
  | ⟨_, _, _, _, _, t⟩ => t

/-- Errors of the module loader. -/
inductive LoadErr where
  | notAbsolute
  | statError (p : String)
  | wrongFilename (p : String)
  | readError (p : String)
  | badCoordinates (gav : String)
  | outOfFuel
  deriving DecidableEq, Repr

/-- `ParseCoordinates`: a coordinate string must split on ":" into exactly
three non-empty parts. -/
def ParseCoordinates (gav : String) : Except LoadErr Dep :=
  match (splitOnChar ':' gav.data).map String.mk with
  | [g, a, v] =>
    if g = "" ∨ a = "" ∨ v = "" then .error (.badCoordinates gav)
    else .ok ⟨gav, g, a, v, "", []⟩
  | _ => .error (.badCoordinates gav)

def parseDeps : List String → Except LoadErr (List Dep)
  | [] => .ok []
  | s :: rest =>
    match ParseCoordinates s with
    | .error e => .error e
    | .ok d =>
      match parseDeps rest with
      | .error e => .error e
      | .ok ds => .ok (d :: ds)

/-- Slash-separated path model (Unix `filepath`).  Valid for the clean
absolute paths `GetModule` works with. -/
def pathJoin (dir name : String) : String := dir ++ "/" ++ name

def pathDir (p : String) : String :=
  ⟨joinChar '/' (splitOnChar '/' p.data).dropLast⟩

def pathBase (p : String) : String :=
  ⟨(splitOnChar '/' p.data).getLast?.getD []⟩

def isAbsPath (p : String) : Bool :=
  match p.data with
  | '/' :: _ => true
  | _ => false

def ModuleFilename : String := "jb-module.json"

/-- The decoded and validated content of a `jb-module.json` file — the
result of `readFile` + `json.Unmarshal` + `loadModuleFile` (defaults
applied); those steps are pure data so they live behind the `read` oracle. -/
structure ModuleFileData where
  group : String
  version : String
  sourceDir : String
  resourcesDir : String
  outputType : String
  mainClass : String
  references : List String
  dependencies : List String
  deriving DecidableEq, Repr

/-- Filesystem oracle for the loader: `exists?`/`isDir` model `os.Stat`,
`read` models reading and decoding a module file. -/
structure LoaderFS where
  exists? : String → Bool
  isDir : String → Bool
  read : String → Option ModuleFileData

/-- A loaded `project.Module`, with `id` the allocation (pointer) identity
and `references` the ids of the referenced modules. -/
structure GoModule where
  id : Nat
  moduleDirAbs : String
  sourceDirAbs : String
  resourceDirAbs : String
  group : String
  name : String
  version : String
  outputType : String
  mainClass : String
  dependencies : List Dep
  references : List Nat
  deriving DecidableEq

/-- The `ModuleLoader` state: the `modules` map (as an association list,
newest entry first, exactly the Go map lookup/insert discipline for these
string keys) and the heap of allocated modules in allocation order. -/
structure LoaderState where
  cache : List (String × Nat)
  heap : List GoModule
  deriving DecidableEq

instance {ε α : Type} [DecidableEq ε] [DecidableEq α] :
    DecidableEq (Except ε α) := fun x y =>
  match x, y with
  | .ok a, .ok b =>
    if h : a = b then isTrue (by rw [h])
    else isFalse (fun hc => h (by injection hc))
  | .error e, .error f =>
    if h : e = f then isTrue (by rw [h])
    else isFalse (fun hc => h (by injection hc))
  | .ok _, .error _ => isFalse (by intro hc; exact Except.noConfusion hc)
  | .error _, .ok _ => isFalse (by intro hc; exact Except.noConfusion hc)

/-- `getModuleFilePath`: resolve a directory to the module file inside it;
a plain file must be named `jb-module.json`. -/
def getModuleFilePath (fs : LoaderFS) (modulePath : String) :
    Except LoadErr String :=
  if !fs.exists? modulePath then .error (.statError modulePath)
  else if fs.isDir modulePath then .ok (pathJoin modulePath ModuleFilename)
  else if !endsWithChars modulePath.data ModuleFilename.data then
    .error (.wrongFilename modulePath)
  else .ok modulePath

mutual

/-- `ModuleLoader.GetModule`: require an absolute path, normalize it to the
module file path, consult the cache **by path**, otherwise read and decode
the module file, allocate a fresh `Module`, store it in the cache **by
name** (`l.modules[module.Name] = module`, before the recursive reference
loading, as in the source), then recursively load the `references` and
attach their identities.  Fuel bounds the recursion (the Go code has no
guard; a reference cycle would recurse forever, which surfaces here as
`outOfFuel`). -/
def GetModule (fs : LoaderFS) (fuel : Nat) (st : LoaderState)
    (modulePath0 : String) : Except LoadErr (Nat × LoaderState) :=
  match fuel with
  | 0 => .error .outOfFuel
  | f + 1 =>
    if !isAbsPath modulePath0 then .error .notAbsolute
    else
      match getModuleFilePath fs modulePath0 with
      | .error e => .error e
      | .ok modulePath =>
        match st.cache.lookup modulePath with
        | some mid => .ok (mid, st)
        | none =>
          match fs.read modulePath with
          | none => .error (.readError modulePath)
          | some mf =>
            match parseDeps mf.dependencies with
            | .error e => .error e
            | .ok deps =>
              let dirAbs := pathDir modulePath
              let m : GoModule := {
                id := st.heap.length
                moduleDirAbs := dirAbs
                sourceDirAbs := pathJoin dirAbs mf.sourceDir
                resourceDirAbs := pathJoin dirAbs mf.resourcesDir
                group := mf.group
                name := pathBase dirAbs
                version := mf.version
                outputType := mf.outputType
                mainClass := mf.mainClass
                dependencies := deps
                references := [] }
              let st1 : LoaderState := ⟨(m.name, m.id) :: st.cache, st.heap ++ [m]⟩
              match loadRefs fs f st1 dirAbs mf.references with
              | .error e => .error e
              | .ok (refIds, st2) =>
                .ok (m.id, ⟨st2.cache, st2.heap.set m.id { m with references := refIds }⟩)
termination_by (fuel, 0, 0)

/-- The loop over `moduleFile.References`, joining each relative reference
path against the module directory. -/
def loadRefs (fs : LoaderFS) (fuel : Nat) (st : LoaderState) (dirAbs : String)
    (refs : List String) : Except LoadErr (List Nat × LoaderState) :=
  match refs with
  | [] => .ok ([], st)
  | r :: rest =>
    match GetModule fs fuel st (pathJoin dirAbs r) with
    | .error e => .error e
    | .ok (rid, st1) =>
      match loadRefs fs fuel st1 dirAbs rest with
      | .error e => .error e
      | .ok (rids, st2) => .ok (rid :: rids, st2)
termination_by (fuel, 1, refs.length)

end

/-! ### Claim C3: the cache is keyed by name, not by path -/

def c3path : String := "/a/mymodule/jb-module.json"

def c3data : ModuleFileData :=
  ⟨"com.example", "1.0.0", ".", ".", "jar", "", [], []⟩

/-- A filesystem with exactly one module file at `c3path`. -/
def c3fs : LoaderFS where
  exists? := fun p => p = c3path
  isDir := fun _ => false
  read := fun p => if p = c3path then some c3data else none

/-- The module allocated by the first `GetModule` call. -/
def c3module0 : GoModule where
  id := 0
  moduleDirAbs := "/a/mymodule"
  sourceDirAbs := "/a/mymodule/."
  resourceDirAbs := "/a/mymodule/."
  group := "com.example"
  name := "mymodule"
  version := "1.0.0"
  outputType := "jar"
  mainClass := ""
  dependencies := []
  references := []

/-- Loader state after the first call: the cache entry is stored under the
derived short name `"mymodule"`, not under the canonicalized absolute
descriptor path. -/
def c3state1 : LoaderState := ⟨[("mymodule", 0)], [c3module0]⟩

/-- C3 (refuted by the code): two `GetModule` calls with the *same*
canonicalized absolute descriptor path do **not** return the same `Module`
instance.  The first call returns the module allocated at id 0 but caches it
under the key `"mymodule"` (the base directory name); the second call looks
the cache up under the path `"/a/mymodule/jb-module.json"`, misses, and
allocates a fresh instance with id 1.  The claim — cache keyed by the
canonicalized absolute path, repeated references resolving to one shared
instance — describes the spec's intent (spec §9 and the repository's own
`TestModuleLoader_GetModule` comment call this an implementation issue), not
the code's behaviour. -/
theorem claim_C3_getModule_cache_keyed_by_name :
    GetModule c3fs 2 ⟨[], []⟩ c3path = .ok (0, c3state1) ∧
    GetModule c3fs 2 c3state1 c3path =
      .ok (1, ⟨("mymodule", 1) :: c3state1.cache,
        c3state1.heap ++ [{ c3module0 with id := 1 }]⟩) ∧
    c3state1.cache = [("mymodule", 0)] := by
  refine ⟨?_, ?_, rfl⟩ <;>
    simp [GetModule, loadRefs, getModuleFilePath, parseDeps, pathJoin,
      pathDir, pathBase, isAbsPath, splitOnChar, joinChar, endsWithChars,
      ModuleFilename, c3fs, c3path, c3data, c3module0, c3state1,
      List.lookup, String.data]

/-! ## Maven POM model and placeholder expansion (maven/pom.go)

`maven.Dependency` is called `MavenDep` here to keep it apart from
`project.Dependency` (`Dep` above).  The `Optional` field is the string flag
read by the transitive walk (`pomChild.Optional == "true"`).  Go's `nil`
pointers for `Properties`/`DependencyManagement` are identified with the
empty list: `GetPOM` initializes them to empty right after decoding, and
`GetProperty`/`SetProperty` treat `nil` exactly like empty. -/

structure Property where
  name : String
  value : String
  deriving DecidableEq, Repr

structure MavenDep where
  groupID : String
  artifactID : String
  version : String
  type : String
  scope : String
  optional : String
  deriving DecidableEq, Repr

structure POM where
  groupID : String
  artifactID : String
  version : String
  packaging : String
  parent : Option MavenDep
  properties : List Property
  dependencies : List MavenDep
  dependencyManagement : List MavenDep
  deriving DecidableEq, Repr

/-- Property lookup: scan the list, first match wins. -/
def findProp (props : List Property) (key : String) : Option String :=
  match props.find? (fun pr => pr.name = key) with
  | some pr => some pr.value
  | none => none

/-- `POM.GetProperty`: scan the property list, first match wins. -/
def POM.GetProperty (p : POM) (key : String) : Option String :=
  findProp p.properties key

def setPropList : List Property → String → String → List Property
  | [], key, value => [⟨key, value⟩]
  | pr :: rest, key, value =>
    if pr.name = key then ⟨pr.name, value⟩ :: rest
    else pr :: setPropList rest key value

/-- `POM.SetProperty`: overwrite the first property with the given name, or
append a new one. -/
def POM.SetProperty (p : POM) (key value : String) : POM :=
  { p with properties := setPropList p.properties key value }

/-- Character class of the Go pattern `[a-zA-Z0-9._-]`. -/
def isKeyChar (c : Char) : Bool :=
  ('a' ≤ c ∧ c ≤ 'z') ∨ ('A' ≤ c ∧ c ≤ 'Z') ∨ ('0' ≤ c ∧ c ≤ '9') ∨
    c = '.' ∨ c = '_' ∨ c = '-'

/-- Match `([a-zA-Z0-9._-]+)\}` at the start of the input (the part of the
pattern following `\$\{`): the key and the remaining input, or `none`. -/
def matchKey (cs : List Char) : Option (List Char × List Char) :=
  let key := cs.takeWhile isKeyChar
  if key.isEmpty then none
  else
    match cs.dropWhile isKeyChar with
    | '}' :: rest2 => some (key, rest2)
    | _ => none

theorem matchKey_le {cs key rest2 : List Char}
    (h : matchKey cs = some (key, rest2)) : rest2.length < cs.length := by
  have hsub : (cs.dropWhile isKeyChar).length ≤ cs.length :=
    (List.dropWhile_sublist isKeyChar).length_le
  rw [matchKey] at h
  by_cases he : (cs.takeWhile isKeyChar).isEmpty
  · simp [he] at h
  · simp [he] at h
    split at h
    · rename_i rest heq
      simp at h
      obtain ⟨-, rfl⟩ := h
      rw [heq] at hsub
      simp at hsub
      omega
    · simp at h

/-- One pass of `regexp.ReplaceAllStringFunc` with the pattern
`\$\{([a-zA-Z0-9._-]+)\}` and the replacement function of `POM.Expand`:
scan left to right; at each `${`, try to match a key followed by `}`; on a
match, emit the property value if the key resolves, else the matched text
verbatim, and continue after the match; otherwise advance one character. -/
def replacePass (props : List Property) (cs : List Char) : List Char :=
  match cs with
  | [] => []
  | '$' :: '{' :: rest =>
    match h : matchKey rest with
    | some (key, rest2) =>
      (match findProp props ⟨key⟩ with
       | some v => v.data
       | none => '$' :: '{' :: (key ++ ['}'])) ++ replacePass props rest2
    | none => '$' :: replacePass props ('{' :: rest)
  | c :: rest => c :: replacePass props rest
termination_by cs.length
decreasing_by
  · have := matchKey_le h
    simp
    omega
  · simp
  · simp

/-- `strings.Contains(result, "${")`. -/
def containsDollarBrace : List Char → Bool
  | [] => false
  | '$' :: '{' :: _ => true
  | _ :: rest => containsDollarBrace rest

/-- The retry loop of `POM.Expand`: while the string still contains `"${"`,
apply a substitution pass; stop when the budget hits zero (the Go loop
decrements `tries` from 5 and breaks at 0). -/
def expandLoop (props : List Property) : Nat → List Char → List Char
  | 0, result => result
  | tries + 1, result =>
    if containsDollarBrace result then
      expandLoop props tries (replacePass props result)
    else result

/-- `POM.Expand` (maven/pom.go): up to 5 substitution passes.  Only the
property table is consulted. -/
def POM.Expand (p : POM) (value : String) : String :=
  ⟨expandLoop p.properties 5 value.data⟩

/-! ### Claim C6: Expand loop contract and idempotence -/

/-- The loop of `Expand` computes some number `n ≤ tries` of substitution
passes, stopping early only when no `"${"` remains. -/
theorem expandLoop_iterate (props : List Property) : ∀ (t : Nat) (r : List Char),
    ∃ n, n ≤ t ∧ expandLoop props t r = (replacePass props)^[n] r ∧
      (containsDollarBrace ((replacePass props)^[n] r) = false ∨ n = t) := by
  intro t
  induction t with
  | zero => exact fun r => ⟨0, Nat.le_refl 0, rfl, .inr rfl⟩
  | succ t ih =>
    intro r
    by_cases hc : containsDollarBrace r
    · obtain ⟨n, hn, heq, hd⟩ := ih (replacePass props r)
      refine ⟨n + 1, Nat.succ_le_succ hn, ?_, ?_⟩
      · rw [Function.iterate_succ_apply]
        rw [expandLoop]
        simp [hc]
        exact heq
      · rw [Function.iterate_succ_apply]
        rcases hd with hd | rfl
        · exact .inl hd
        · exact .inr rfl
    · refine ⟨0, Nat.zero_le _, ?_, .inl ?_⟩
      · rw [expandLoop]
        simp [hc]
      · simpa using hc

/-- C6: `POM.Expand` (i) returns a string with no placeholder start
unchanged; (ii) is therefore idempotent once the result is fully resolved;
(iii) leaves a placeholder with an unknown key verbatim (no error); and
(iv) performs at most 5 substitution passes, stopping early only when no
`"${"` remains. -/
theorem claim_C6_expand_contract :
    (∀ (p : POM) (v : String), containsDollarBrace v.data = false →
      p.Expand v = v) ∧
    (∀ (p : POM) (v : String),
      containsDollarBrace (p.Expand v).data = false →
      p.Expand (p.Expand v) = p.Expand v) ∧
    (∀ (p : POM), p.GetProperty "missing" = none →
      p.Expand "${missing}" = "${missing}") ∧
    (∀ (p : POM) (v : String), ∃ n, n ≤ 5 ∧
      p.Expand v = ⟨(replacePass p.properties)^[n] v.data⟩ ∧
      (containsDollarBrace ((replacePass p.properties)^[n] v.data) = false ∨
        n = 5)) := by
  have h1 : ∀ (p : POM) (v : String), containsDollarBrace v.data = false →
      p.Expand v = v := by
    intro p v h
    rw [POM.Expand, expandLoop]
    simp [h]
  refine ⟨h1, ?_, ?_, ?_⟩
  · intro p v h
    exact h1 p (p.Expand v) h
  · intro p h
    have hmk : matchKey ['m', 'i', 's', 's', 'i', 'n', 'g', '}'] =
        some (['m', 'i', 's', 's', 'i', 'n', 'g'], []) := by decide
    have hstr : String.mk ['m', 'i', 's', 's', 'i', 'n', 'g'] = "missing" := rfl
    have hpass : replacePass p.properties ("${missing}".data) =
        "${missing}".data := by
      show replacePass p.properties
        ['$', '{', 'm', 'i', 's', 's', 'i', 'n', 'g', '}'] = _
      rw [replacePass]
      split
      · rename_i key rest2 heq
        rw [hmk] at heq
        simp at heq
        obtain ⟨h1', h2'⟩ := heq
        subst h1'
        subst h2'
        rw [POM.GetProperty] at h
        simp [hstr, h, replacePass]
      · rename_i heq
        rw [hmk] at heq
        simp at heq
    have hcd : containsDollarBrace ("${missing}".data) = true := by decide
    rw [POM.Expand]
    rw [show (5 : Nat) = 4 + 1 from rfl, expandLoop]
    simp [hcd, hpass]
    rw [show (4 : Nat) = 3 + 1 from rfl, expandLoop]
    simp [hcd, hpass]
    rw [show (3 : Nat) = 2 + 1 from rfl, expandLoop]
    simp [hcd, hpass]
    rw [show (2 : Nat) = 1 + 1 from rfl, expandLoop]
    simp [hcd, hpass]
    rw [show (1 : Nat) = 0 + 1 from rfl, expandLoop]
    simp [hcd, hpass]
    rfl
  · intro p v
    obtain ⟨n, hn, heq, hd⟩ := expandLoop_iterate p.properties 5 v.data
    exact ⟨n, hn, by rw [POM.Expand, heq], hd⟩

/-- Witness for C6: a property table `{x ↦ 1}`; `"a b"` (no placeholder) is
unchanged, and `"${missing}"` round-trips verbatim. -/
theorem claim_C6_witness :
    (containsDollarBrace "a b".data = false ∧
      (⟨"g", "a", "1", "jar", none, [⟨"x", "1"⟩], [], []⟩ : POM).Expand "a b" = "a b") ∧
    ((⟨"g", "a", "1", "jar", none, [⟨"x", "1"⟩], [], []⟩ : POM).GetProperty "missing" = none ∧
      (⟨"g", "a", "1", "jar", none, [⟨"x", "1"⟩], [], []⟩ : POM).Expand "${missing}" = "${missing}") :=
  ⟨⟨by decide, claim_C6_expand_contract.1 _ "a b" (by decide)⟩,
    ⟨by decide, claim_C6_expand_contract.2.2.1 _ (by decide)⟩⟩

/-! ## LocalRepository.GetPOM (maven/repo.go)

Fetching and parsing a POM file from disk or a remote (`getFile`, `os.Open`,
`xml.Decode`) is abstracted by a pure oracle
`fetch : group → artifact → version → Option POM` returning the raw decoded
document; `none` covers both fetch and decode failure (Go carries a
partially decoded document together with the error, but every caller checks
the error first, so the difference is unobservable).  The in-memory
`poms map[string]*POM` cache is an association list keyed by the GAV
string.  Go inserts the *pointer* into the map right after decoding and then
mutates the document in place through the remaining steps; for acyclic
parent chains this is the same as inserting the fully processed document at
the end, which is how we thread the state.  Recursion (parent chain,
`import`-scope metadata) is fuel-bounded; the Go code has no such guard. -/

def GAV (g a v : String) : String := g ++ ":" ++ a ++ ":" ++ v

inductive POMErr where
  | invalidCoordinates (g a v : String)
  | fetchFailed (g a v : String)
  | outOfFuel
  deriving DecidableEq, Repr

/-- `POM.findDependency`: first managed entry matching (group, artifact). -/
def POM.findDependency (p : POM) (g a : String) : Option MavenDep :=
  p.dependencyManagement.find? (fun d => d.groupID = g ∧ d.artifactID = a)

/-- `mergeParentDeps`: append each parent entry whose (group, artifact) key
is absent from the (growing) child list — child entries win. -/
def mergeParentDeps : List MavenDep → List MavenDep → List MavenDep
  | child, [] => child
  | child, d :: rest =>
    if child.any (fun cd => d.groupID = cd.groupID ∧ d.artifactID = cd.artifactID)
    then mergeParentDeps child rest
    else mergeParentDeps (child ++ [d]) rest

/-- `mergeParentProperties`: rebuild the child's property list as the
parent's list followed by `SetProperty` of each old child property — child
values win, parent-only keys survive. -/
def mergeParentProperties (child parent : POM) : POM :=
  { child with properties :=
      (child.properties.foldl
        (fun acc pr => setPropList acc pr.name pr.value) parent.properties) }

/-- The version-fill loop of `GetPOM`: a declared dependency without a
version takes the version of the managed entry with its key, if any. -/
def fillVersions (pom : POM) : POM :=
  { pom with dependencies := pom.dependencies.map (fun d =>
      if d.version = "" then
        match pom.findDependency d.groupID d.artifactID with
        | some dm => { d with version := dm.version }
        | none => d
      else d) }

/-- The final loop of `GetPOM`: expand placeholders in every non-empty
declared-dependency version. -/
def expandDepVersions (pom : POM) : POM :=
  { pom with dependencies := pom.dependencies.map (fun d =>
      if d.version ≠ "" then { d with version := pom.Expand d.version }
      else d) }

def emptyMavenDep : MavenDep := ⟨"", "", "", "", "", ""⟩

/-- The pure part of `expandParentProperties`, applied to the resolved
parent document: inherit group/version when the child omits them, merge
managed dependencies and properties (child wins), and set
`project.parent.version`. -/
def inheritParent (pom parent : POM) : POM :=
  let pom := if pom.groupID = "" then { pom with groupID := parent.groupID } else pom
  let pom := if pom.version = "" then { pom with version := parent.version } else pom
  let pom := { pom with dependencyManagement :=
      (mergeParentDeps pom.dependencyManagement parent.dependencyManagement) }
  let pom := mergeParentProperties pom parent
  pom.SetProperty "project.parent.version" parent.version

mutual

/-- `LocalRepository.GetPOM` (first revision of maven/repo.go, the latest
logic): coordinate validation, cache lookup by GAV, fetch/decode, parent
inheritance, synthetic `project.version` property, managed-dependency
expansion with `import` handling, version fill for declared dependencies,
and final placeholder expansion. -/
def GetPOM (fetch : String → String → String → Option POM) (fuel : Nat)
    (cache : List (String × POM)) (g a v : String) :
    Except POMErr (POM × List (String × POM)) :=
  if g = "" ∨ a = "" ∨ v = "" then .error (.invalidCoordinates g a v)
  else
    match fuel with
    | 0 => .error .outOfFuel
    | f + 1 =>
      match cache.lookup (GAV g a v) with
      | some pom => .ok (pom, cache)
      | none =>
        match fetch g a v with
        | none => .error (.fetchFailed g a v)
        | some pom0 =>
          match (match pom0.parent with
                 | some par => expandParentProperties fetch f cache pom0 par
                 | none => .ok (pom0, cache)) with
          | .error e => .error e
          | .ok (pom1, cache1) =>
            let pom2 := pom1.SetProperty "project.version" pom1.version
            match dmLoop fetch f pom2.dependencyManagement.length 0 pom2 cache1 with
            | .error e => .error e
            | .ok (pom3, cache2) =>
              let pom4 := expandDepVersions (fillVersions pom3)
              .ok (pom4, (GAV g a v, pom4) :: cache2)
termination_by (fuel, 0, 0)

/-- `LocalRepository.expandParentProperties`: resolve the parent document,
inherit group/version when the child omits them, merge managed dependencies
(child wins) and properties (child wins), and set
`project.parent.version`. -/
def expandParentProperties (fetch : String → String → String → Option POM)
    (fuel : Nat) (cache : List (String × POM)) (pom : POM) (par : MavenDep) :
    Except POMErr (POM × List (String × POM)) :=
  match GetPOM fetch fuel cache par.groupID par.artifactID par.version with
  | .error e => .error e
  | .ok (parent, cache1) => .ok (inheritParent pom parent, cache1)
termination_by (fuel, 1, 0)

/-- The `for i := range pom.DependencyManagement.Dependencies` loop of
`GetPOM`: expand each managed version in place; an entry with scope
`import` and type `pom` pulls in another document's managed list (appended
child-wins, which never disturbs the indices below `n`).  The iteration
count `rem` is the list length at loop entry, as in Go. -/
def dmLoop (fetch : String → String → String → Option POM) (fuel : Nat)
    (rem i : Nat) (pom : POM) (cache : List (String × POM)) :
    Except POMErr (POM × List (String × POM)) :=
  match rem with
  | 0 => .ok (pom, cache)
  | r + 1 =>
    let d0 := pom.dependencyManagement.getD i emptyMavenDep
    let d := { d0 with version := pom.Expand d0.version }
    let pom := { pom with dependencyManagement :=
        pom.dependencyManagement.set i d }
    if d.scope = "import" ∧ d.type = "pom" then
      match GetPOM fetch fuel cache d.groupID d.artifactID d.version with
      | .error e => .error e
      | .ok (incl, cache1) =>
        dmLoop fetch fuel r (i + 1)
          { pom with dependencyManagement :=
              mergeParentDeps pom.dependencyManagement incl.dependencyManagement }
          cache1
    else dmLoop fetch fuel r (i + 1) pom cache
termination_by (fuel, 1, rem)

end

/-! ### Claim C10: empty coordinates fail fast -/

/-- C10: a `GetPOM` call with an empty group, artifact or version returns
the invalid-coordinates error immediately.  The conclusion holds for *every*
fetch oracle and *every* cache, and the error return carries no state:
neither the in-memory cache nor anything behind the fetch oracle (the
on-disk cache and the remotes) is consulted or changed. -/
theorem claim_C10_getPOM_invalid_coordinates
    (fetch : String → String → String → Option POM) (fuel : Nat)
    (cache : List (String × POM)) (g a v : String)
    (h : g = "" ∨ a = "" ∨ v = "") :
    GetPOM fetch fuel cache g a v = .error (.invalidCoordinates g a v) := by
  rw [GetPOM.eq_def]
  simp [h]

/-- Witness for C10: empty group with a populated cache and an oracle that
would answer — neither is touched. -/
theorem claim_C10_witness :
    GetPOM (fun _ _ _ => some ⟨"g", "a", "1", "jar", none, [], [], []⟩) 3
      [("g:a:1", ⟨"g", "a", "1", "jar", none, [], [], []⟩)] "" "junit" "4.13" =
      .error (.invalidCoordinates "" "junit" "4.13") :=
  claim_C10_getPOM_invalid_coordinates _ 3 _ "" "junit" "4.13" (.inl rfl)

/-! ### Supporting lemmas for the metadata pipeline (claim C5) -/

theorem findProp_setPropList_self : ∀ (props : List Property) (k v : String),
    findProp (setPropList props k v) k = some v := by
  intro props k v
  induction props with
  | nil => simp [setPropList, findProp]
  | cons pr rest ih =>
    rw [setPropList]
    by_cases h : pr.name = k
    · rw [if_pos h]
      simp [findProp, List.find?, h]
    · rw [if_neg h]
      rw [findProp, List.find?_cons_of_neg _ (by simp [h])]
      rw [findProp] at ih
      exact ih

/-- Membership in the merged managed-dependency list comes from one side. -/
theorem mem_mergeParentDeps : ∀ (p c : List MavenDep) (x : MavenDep),
    x ∈ mergeParentDeps c p → x ∈ c ∨ x ∈ p := by
  intro p
  induction p with
  | nil => intro c x hx; rw [mergeParentDeps] at hx; exact .inl hx
  | cons d rest ih =>
    intro c x hx
    rw [mergeParentDeps] at hx
    by_cases h : c.any (fun cd => d.groupID = cd.groupID ∧ d.artifactID = cd.artifactID)
    · rw [if_pos h] at hx
      rcases ih c x hx with h2 | h2
      · exact .inl h2
      · exact .inr (List.mem_cons_of_mem _ h2)
    · rw [if_neg h] at hx
      rcases ih (c ++ [d]) x hx with h2 | h2
      · rcases List.mem_append.mp h2 with h3 | h3
        · exact .inl h3
        · simp at h3
          exact .inr (h3 ▸ List.mem_cons_self _ _)
      · exact .inr (List.mem_cons_of_mem _ h2)

theorem find?_append_left {q : MavenDep → Bool} {l1 : List MavenDep}
    {d : MavenDep} (h : l1.find? q = some d) (l2 : List MavenDep) :
    (l1 ++ l2).find? q = some d := by
  induction l1 with
  | nil => simp [List.find?] at h
  | cons x xs ih =>
    by_cases hx : q x
    · rw [List.find?_cons_of_pos _ hx] at h
      simpa [List.find?_cons_of_pos _ hx] using h
    · rw [List.find?_cons_of_neg _ hx] at h
      simpa [List.find?_cons_of_neg _ hx] using ih h

/-- A first match in the child list survives the merge — child entries win. -/
theorem find?_mergeParentDeps_child {q : MavenDep → Bool} :
    ∀ (p c : List MavenDep) (d : MavenDep), c.find? q = some d →
      (mergeParentDeps c p).find? q = some d := by
  intro p
  induction p with
  | nil => intro c d h; rw [mergeParentDeps]; exact h
  | cons x rest ih =>
    intro c d h
    rw [mergeParentDeps]
    by_cases hx : c.any (fun cd => x.groupID = cd.groupID ∧ x.artifactID = cd.artifactID)
    · rw [if_pos hx]
      exact ih c d h
    · rw [if_neg hx]
      exact ih (c ++ [x]) d (find?_append_left h [x])

/-- When the child has no entry for a key that the parent supplies, the
merged list has a (first) entry for that key. -/
theorem find?_mergeParentDeps_parent {g a : String} :
    ∀ (p c : List MavenDep),
      c.find? (fun cd => cd.groupID = g ∧ cd.artifactID = a) = none →
      (∃ x ∈ p, x.groupID = g ∧ x.artifactID = a) →
      ∃ d, (mergeParentDeps c p).find?
          (fun cd => cd.groupID = g ∧ cd.artifactID = a) = some d ∧
        d.groupID = g ∧ d.artifactID = a := by
  intro p
  induction p with
  | nil => intro c hc ⟨x, hx, _⟩; simp at hx
  | cons y rest ih =>
    intro c hc ⟨x, hx, hxk⟩
    rw [mergeParentDeps]
    by_cases hy : y.groupID = g ∧ y.artifactID = a
    · have hany : ¬ (c.any
          (fun cd => y.groupID = cd.groupID ∧ y.artifactID = cd.artifactID) = true) := by
        rw [List.any_eq_true]
        rintro ⟨cd, hcd, hmatch⟩
        simp at hmatch
        have h2 := List.find?_eq_none.mp hc cd hcd
        simp at h2
        exact h2 (hmatch.1.symm.trans hy.1) (hmatch.2.symm.trans hy.2)
      rw [if_neg hany]
      refine ⟨y, ?_, hy⟩
      have hfind : (c ++ [y]).find?
          (fun cd => cd.groupID = g ∧ cd.artifactID = a) = some y := by
        rw [List.find?_append, hc]
        simp [List.find?, hy.1, hy.2]
      exact find?_mergeParentDeps_child rest (c ++ [y]) y hfind
    · have hxrest : x ∈ rest := by
        rcases List.mem_cons.mp hx with rfl | h2
        · exact absurd hxk hy
        · exact h2
      by_cases hany : c.any (fun cd => y.groupID = cd.groupID ∧ y.artifactID = cd.artifactID)
      · rw [if_pos hany]
        exact ih c hc ⟨x, hxrest, hxk⟩
      · rw [if_neg hany]
        refine ih (c ++ [y]) ?_ ⟨x, hxrest, hxk⟩
        rw [List.find?_eq_none] at hc ⊢
        intro u hu
        rcases List.mem_append.mp hu with h2 | h2
        · exact hc u h2
        · simp at h2
          subst h2
          simp
          intro h3 h4
          exact absurd ⟨h3, h4⟩ hy

/-- `find?` through a map that preserves the searched predicate. -/
theorem find?_map_pres {q : MavenDep → Bool} {f : MavenDep → MavenDep}
    (hf : ∀ d, q (f d) = q d) :
    ∀ (l : List MavenDep) (d : MavenDep), l.find? q = some d →
      (l.map f).find? q = some (f d) := by
  intro l
  induction l with
  | nil => intro d h; simp [List.find?] at h
  | cons x xs ih =>
    intro d h
    by_cases hx : q x
    · rw [List.find?_cons_of_pos _ hx] at h
      simp at h
      subst h
      rw [List.map_cons, List.find?_cons_of_pos _ (by rw [hf]; exact hx)]
    · rw [List.find?_cons_of_neg _ hx] at h
      rw [List.map_cons, List.find?_cons_of_neg _ (by rw [hf]; exact hx)]
      exact ih d h

/-- The effect of the managed-dependency loop when no `import` entries are
present: every version is expanded against the (unchanging) property
table. -/
def dmExpandAll (props : List Property) (l : List MavenDep) : List MavenDep :=
  l.map (fun d => { d with version := ⟨expandLoop props 5 d.version.data⟩ })

theorem dmLoop_no_import (fetch : String → String → String → Option POM)
    (fuel : Nat) : ∀ (rem i : Nat) (pom : POM) (cache : List (String × POM)),
    pom.dependencyManagement.length = i + rem →
    (∀ d ∈ pom.dependencyManagement, ¬(d.scope = "import" ∧ d.type = "pom")) →
    dmLoop fetch fuel rem i pom cache =
      .ok ({ pom with dependencyManagement :=
        (pom.dependencyManagement.take i ++
          dmExpandAll pom.properties (pom.dependencyManagement.drop i)) },
        cache) := by
  intro rem
  induction rem with
  | zero =>
    intro i pom cache hlen hni
    rw [dmLoop]
    have h1 : pom.dependencyManagement.drop i = [] :=
      List.drop_eq_nil_of_le (by omega)
    have h2 : pom.dependencyManagement.take i = pom.dependencyManagement :=
      List.take_of_length_le (by omega)
    rw [h1, h2]
    simp [dmExpandAll]
  | succ r ih =>
    intro i pom cache hlen hni
    have hi : i < pom.dependencyManagement.length := by omega
    rw [dmLoop]
    have hd0 : pom.dependencyManagement.getD i emptyMavenDep =
        pom.dependencyManagement[i] := List.getD_eq_getElem _ _ hi
    have hd0mem : pom.dependencyManagement[i] ∈ pom.dependencyManagement :=
      List.getElem_mem _
    simp only [hd0]
    rw [if_neg (hni _ hd0mem)]
    set d := { pom.dependencyManagement[i] with
      version := (pom.Expand pom.dependencyManagement[i].version) } with hd
    set pom1 : POM := { pom with dependencyManagement :=
      (pom.dependencyManagement.set i d) } with hpom1
    have hset : pom.dependencyManagement.set i d =
        pom.dependencyManagement.take i ++ d ::
          pom.dependencyManagement.drop (i + 1) :=
      List.set_eq_take_cons_drop d hi
    have hlen1 : pom1.dependencyManagement.length = (i + 1) + r := by
      simp [hpom1]
      omega
    have hni1 : ∀ x ∈ pom1.dependencyManagement,
        ¬(x.scope = "import" ∧ x.type = "pom") := by
      intro x hx
      simp only [hpom1, hset] at hx
      rcases List.mem_append.mp hx with hx2 | hx2
      · exact hni x (List.mem_of_mem_take hx2)
      · rcases List.mem_cons.mp hx2 with rfl | hx3
        · exact fun hc => hni _ hd0mem ⟨hc.1, hc.2⟩
        · exact hni x (List.mem_of_mem_drop hx3)
    rw [ih (i + 1) pom1 cache hlen1 hni1]
    have htake : pom1.dependencyManagement.take (i + 1) =
        pom.dependencyManagement.take i ++ [d] := by
      simp only [hpom1, hset]
      rw [List.take_append_eq_append_take]
      rw [List.take_of_length_le (by simp [List.length_take])]
      simp [List.length_take, Nat.min_eq_left (Nat.le_of_lt hi)]
    have hdrop : pom1.dependencyManagement.drop (i + 1) =
        pom.dependencyManagement.drop (i + 1) := by
      simp only [hpom1, hset]
      rw [List.drop_append_eq_append_drop]
      rw [List.drop_eq_nil_of_le (by simp [List.length_take])]
      simp [List.length_take, Nat.min_eq_left (Nat.le_of_lt hi)]
    have hdropi : pom.dependencyManagement.drop i =
        pom.dependencyManagement[i] :: pom.dependencyManagement.drop (i + 1) :=
      List.drop_eq_getElem_cons hi
    have hprops : pom1.properties = pom.properties := rfl
    rw [htake, hdrop, hprops, hdropi]
    simp only [dmExpandAll, List.map_cons]
    have hexp : ({ pom.dependencyManagement[i] with
        version := (⟨expandLoop pom.properties 5
          pom.dependencyManagement[i].version.data⟩ : String) } : MavenDep) = d := by
      rw [hd]
      rfl
    rw [hexp]
    simp

/-- The document produced by `GetPOM` for a parentless document with no
`import` entries: set `project.version`, expand managed versions, fill and
expand declared versions. -/
def processSimple (pom : POM) : POM :=
  let pom2 := pom.SetProperty "project.version" pom.version
  expandDepVersions (fillVersions { pom2 with dependencyManagement :=
    (dmExpandAll pom2.properties pom2.dependencyManagement) })

theorem getPOM_no_parent_no_import (fetch : String → String → String → Option POM)
    (f : Nat) (cache : List (String × POM)) (g a v : String) (pom : POM)
    (hg : g ≠ "") (ha : a ≠ "") (hv : v ≠ "")
    (hcache : cache.lookup (GAV g a v) = none)
    (hfetch : fetch g a v = some pom)
    (hpar : pom.parent = none)
    (hni : ∀ d ∈ pom.dependencyManagement, ¬(d.scope = "import" ∧ d.type = "pom")) :
    GetPOM fetch (f + 1) cache g a v =
      .ok (processSimple pom, (GAV g a v, processSimple pom) :: cache) := by
  rw [GetPOM.eq_def]
  rw [if_neg (by simp [hg, ha, hv])]
  simp only [hcache, hfetch, hpar]
  have hni2 : ∀ d ∈ (pom.SetProperty "project.version" pom.version).dependencyManagement,
      ¬(d.scope = "import" ∧ d.type = "pom") := hni
  rw [dmLoop_no_import fetch f _ 0 _ cache (by omega) hni2]
  simp [processSimple, dmExpandAll]

/-! ### Projections of the pipeline stages -/

theorem processSimple_groupID (pom : POM) :
    (processSimple pom).groupID = pom.groupID := rfl

theorem processSimple_version (pom : POM) :
    (processSimple pom).version = pom.version := rfl

theorem processSimple_props (pom : POM) :
    (processSimple pom).properties =
      setPropList pom.properties "project.version" pom.version := rfl

theorem processSimple_dm (pom : POM) :
    (processSimple pom).dependencyManagement =
      dmExpandAll (setPropList pom.properties "project.version" pom.version)
        pom.dependencyManagement := rfl

theorem inheritParent_dm (pom parent : POM) :
    (inheritParent pom parent).dependencyManagement =
      mergeParentDeps pom.dependencyManagement parent.dependencyManagement := by
  rw [inheritParent]
  by_cases h1 : pom.groupID = "" <;> by_cases h2 : pom.version = "" <;>
    simp [h1, h2, mergeParentProperties, POM.SetProperty]

theorem inheritParent_props (pom parent : POM) :
    (inheritParent pom parent).properties =
      setPropList
        (pom.properties.foldl (fun acc pr => setPropList acc pr.name pr.value)
          parent.properties)
        "project.parent.version" parent.version := by
  rw [inheritParent]
  by_cases h1 : pom.groupID = "" <;> by_cases h2 : pom.version = "" <;>
    simp [h1, h2, mergeParentProperties, POM.SetProperty]

theorem inheritParent_groupID {pom : POM} (parent : POM) (h : pom.groupID = "") :
    (inheritParent pom parent).groupID = parent.groupID := by
  rw [inheritParent]
  by_cases h2 : pom.version = "" <;>
    simp [h, h2, mergeParentProperties, POM.SetProperty]

theorem inheritParent_version {pom : POM} (parent : POM) (h : pom.version = "") :
    (inheritParent pom parent).version = parent.version := by
  rw [inheritParent]
  by_cases h1 : pom.groupID = "" <;>
    simp [h1, h, mergeParentProperties, POM.SetProperty]

theorem dmExpandAll_no_import {props : List Property} {l : List MavenDep}
    (h : ∀ d ∈ l, ¬(d.scope = "import" ∧ d.type = "pom")) :
    ∀ x ∈ dmExpandAll props l, ¬(x.scope = "import" ∧ x.type = "pom") := by
  intro x hx
  rw [dmExpandAll] at hx
  obtain ⟨d, hd, rfl⟩ := List.mem_map.mp hx
  exact fun hc => h d hd ⟨hc.1, hc.2⟩

/-- Expanding the literal `${project.version}` against a property table
that binds `project.version` to a placeholder-free value yields that
value. -/
theorem expand_project_version {props : List Property} {val : String}
    (hfind : findProp props "project.version" = some val)
    (hval : containsDollarBrace val.data = false) :
    (⟨expandLoop props 5 ("${project.version}".data)⟩ : String) = val := by
  have hmk : matchKey ("project.version".data ++ ['\x7d']) =
      some ("project.version".data, []) := by decide
  have hstr : String.mk ("project.version".data) = "project.version" := rfl
  have hpass : replacePass props ("${project.version}".data) = val.data := by
    show replacePass props
      ('$' :: '\x7b' :: ("project.version".data ++ ['\x7d'])) = val.data
    rw [replacePass]
    split
    · rename_i key rest2 heq
      rw [hmk] at heq
      simp at heq
      obtain ⟨h1, h2⟩ := heq
      subst h1
      subst h2
      simp [hstr, hfind, replacePass]
    · rename_i heq
      rw [hmk] at heq
      simp at heq
  have hcd : containsDollarBrace ("${project.version}".data) = true := by decide
  rw [show (5 : Nat) = 4 + 1 from rfl, expandLoop]
  simp only [hcd, if_true, hpass]
  rw [show (4 : Nat) = 3 + 1 from rfl, expandLoop]
  rw [if_neg (by simp [hval])]

/-- The run of `GetPOM` on a child whose document names a parent (and has
empty group and version), where neither document has `import` entries and
both miss the cache: the child resolves to
`processSimple (inheritParent cpom (processSimple ppom))` and both
documents are cached. -/
theorem getPOM_parent_run (fetch : String → String → String → Option POM)
    (f : Nat) (cache : List (String × POM)) (cg ca cv : String)
    (cpom ppom : POM) (par : MavenDep)
    (hg : cg ≠ "") (ha : ca ≠ "") (hv : cv ≠ "")
    (hpg : par.groupID ≠ "") (hpa : par.artifactID ≠ "") (hpv : par.version ≠ "")
    (hcacheC : cache.lookup (GAV cg ca cv) = none)
    (hcacheP : cache.lookup (GAV par.groupID par.artifactID par.version) = none)
    (hfetchC : fetch cg ca cv = some cpom)
    (hparent : cpom.parent = some par)
    (hfetchP : fetch par.groupID par.artifactID par.version = some ppom)
    (hpnone : ppom.parent = none)
    (hniC : ∀ d ∈ cpom.dependencyManagement, ¬(d.scope = "import" ∧ d.type = "pom"))
    (hniP : ∀ d ∈ ppom.dependencyManagement, ¬(d.scope = "import" ∧ d.type = "pom")) :
    GetPOM fetch (f + 2) cache cg ca cv =
      .ok (processSimple (inheritParent cpom (processSimple ppom)),
        (GAV cg ca cv, processSimple (inheritParent cpom (processSimple ppom))) ::
          (GAV par.groupID par.artifactID par.version, processSimple ppom) ::
            cache) := by
  rw [GetPOM.eq_def]
  rw [if_neg (by simp [hg, ha, hv])]
  simp only [hcacheC, hfetchC, hparent]
  rw [expandParentProperties]
  rw [getPOM_no_parent_no_import fetch f cache par.groupID par.artifactID
    par.version ppom hpg hpa hpv hcacheP hfetchP hpnone hniP]
  simp only []
  have hniE : ∀ d ∈ ((inheritParent cpom
        (processSimple ppom)).SetProperty "project.version"
        (inheritParent cpom (processSimple ppom)).version).dependencyManagement,
      ¬(d.scope = "import" ∧ d.type = "pom") := by
    show ∀ d ∈ (inheritParent cpom (processSimple ppom)).dependencyManagement, _
    rw [inheritParent_dm, processSimple_dm]
    intro d hd
    rcases mem_mergeParentDeps _ _ _ hd with h2 | h2
    · exact hniC d h2
    · exact dmExpandAll_no_import hniP d h2
  rw [dmLoop_no_import fetch (f + 1) _ 0 _ _ (by omega) hniE]
  simp only [processSimple, List.take_zero, List.drop_zero, List.nil_append]

/-- C5: parent inheritance in `GetPOM`.  For a child document that declares
a parent coordinate and has empty `groupId` and `version` (with both
documents free of `import` entries and absent from the cache), the resolved
child metadata: takes the parent's `groupId` and `version`; binds the
property `project.version` to the child's own (parent-inherited) version;
keeps each of the child's own managed entries as the first match for its
(group, artifact) key — child entries win on collision — with its version
expanded against the merged property table, so a child managed version
written `${project.version}` resolves to the child's (inherited) version;
and keys only the parent supplies survive into the merged managed list. -/
theorem claim_C5_parent_inheritance
    (fetch : String → String → String → Option POM)
    (f : Nat) (cache : List (String × POM)) (cg ca cv : String)
    (cpom ppom : POM) (par : MavenDep)
    (hg : cg ≠ "") (ha : ca ≠ "") (hv : cv ≠ "")
    (hpg : par.groupID ≠ "") (hpa : par.artifactID ≠ "") (hpv : par.version ≠ "")
    (hcacheC : cache.lookup (GAV cg ca cv) = none)
    (hcacheP : cache.lookup (GAV par.groupID par.artifactID par.version) = none)
    (hfetchC : fetch cg ca cv = some cpom)
    (hparent : cpom.parent = some par)
    (hfetchP : fetch par.groupID par.artifactID par.version = some ppom)
    (hpnone : ppom.parent = none)
    (hniC : ∀ d ∈ cpom.dependencyManagement, ¬(d.scope = "import" ∧ d.type = "pom"))
    (hniP : ∀ d ∈ ppom.dependencyManagement, ¬(d.scope = "import" ∧ d.type = "pom"))
    (hG : cpom.groupID = "") (hV : cpom.version = "")
    (hppv : containsDollarBrace ppom.version.data = false) :
    ∃ pomR cacheR,
      GetPOM fetch (f + 2) cache cg ca cv = .ok (pomR, cacheR) ∧
      pomR.groupID = ppom.groupID ∧
      pomR.version = ppom.version ∧
      pomR.GetProperty "project.version" = some ppom.version ∧
      (∀ g a d, cpom.dependencyManagement.find?
          (fun cd => cd.groupID = g ∧ cd.artifactID = a) = some d →
        ∃ d', pomR.findDependency g a = some d' ∧
          d'.groupID = d.groupID ∧ d'.artifactID = d.artifactID ∧
          d'.scope = d.scope ∧ d'.version = pomR.Expand d.version) ∧
      (∀ g a d, cpom.dependencyManagement.find?
          (fun cd => cd.groupID = g ∧ cd.artifactID = a) = some d →
        d.version = "${project.version}" →
        ∃ d', pomR.findDependency g a = some d' ∧ d'.version = ppom.version) ∧
      (∀ g a, cpom.dependencyManagement.find?
          (fun cd => cd.groupID = g ∧ cd.artifactID = a) = none →
        (∃ x ∈ ppom.dependencyManagement, x.groupID = g ∧ x.artifactID = a) →
        ∃ d', pomR.findDependency g a = some d' ∧
          d'.groupID = g ∧ d'.artifactID = a) := by
  have hrun := getPOM_parent_run fetch f cache cg ca cv cpom ppom par
    hg ha hv hpg hpa hpv hcacheC hcacheP hfetchC hparent hfetchP hpnone hniC hniP
  have hEv : (inheritParent cpom (processSimple ppom)).version = ppom.version := by
    rw [inheritParent_version _ hV, processSimple_version]
  have hEg : (inheritParent cpom (processSimple ppom)).groupID = ppom.groupID := by
    rw [inheritParent_groupID _ hG, processSimple_groupID]
  refine ⟨_, _, hrun, ?_, ?_, ?_, ?_, ?_, ?_⟩
  · rw [processSimple_groupID]
    exact hEg
  · rw [processSimple_version]
    exact hEv
  · rw [POM.GetProperty, processSimple_props, findProp_setPropList_self, hEv]
  · intro g a d hfd
    have hmerged := find?_mergeParentDeps_child
      (processSimple ppom).dependencyManagement _ d hfd
    rw [← inheritParent_dm] at hmerged
    have hmap := find?_map_pres (q := fun cd => cd.groupID = g ∧ cd.artifactID = a)
      (f := fun x => { x with version := (⟨expandLoop
        (setPropList (inheritParent cpom (processSimple ppom)).properties
          "project.version" (inheritParent cpom (processSimple ppom)).version)
        5 x.version.data⟩ : String) }) (fun x => rfl) _ d hmerged
    refine ⟨{ d with version := (⟨expandLoop
      (setPropList (inheritParent cpom (processSimple ppom)).properties
        "project.version" (inheritParent cpom (processSimple ppom)).version)
      5 d.version.data⟩ : String) }, ?_, rfl, rfl, rfl, rfl⟩
    rw [POM.findDependency, processSimple_dm, dmExpandAll]
    exact hmap
  · intro g a d hfd hdv
    have hmerged := find?_mergeParentDeps_child
      (processSimple ppom).dependencyManagement _ d hfd
    rw [← inheritParent_dm] at hmerged
    have hmap := find?_map_pres (q := fun cd => cd.groupID = g ∧ cd.artifactID = a)
      (f := fun x => { x with version := (⟨expandLoop
        (setPropList (inheritParent cpom (processSimple ppom)).properties
          "project.version" (inheritParent cpom (processSimple ppom)).version)
        5 x.version.data⟩ : String) }) (fun x => rfl) _ d hmerged
    refine ⟨{ d with version := (⟨expandLoop
      (setPropList (inheritParent cpom (processSimple ppom)).properties
        "project.version" (inheritParent cpom (processSimple ppom)).version)
      5 d.version.data⟩ : String) }, ?_, ?_⟩
    · rw [POM.findDependency, processSimple_dm, dmExpandAll]
      exact hmap
    · show (⟨expandLoop _ 5 d.version.data⟩ : String) = ppom.version
      rw [hdv, ← hEv]
      exact expand_project_version (findProp_setPropList_self _ _ _)
        (by rw [hEv]; exact hppv)
  · intro g a hnone ⟨x, hx, hxg, hxa⟩
    have hpkey : ∃ y ∈ (processSimple ppom).dependencyManagement,
        y.groupID = g ∧ y.artifactID = a := by
      rw [processSimple_dm, dmExpandAll]
      exact ⟨_, List.mem_map_of_mem _ hx, hxg, hxa⟩
    obtain ⟨d2, hd2, hd2g, hd2a⟩ := find?_mergeParentDeps_parent
      (processSimple ppom).dependencyManagement cpom.dependencyManagement
      hnone hpkey
    rw [← inheritParent_dm] at hd2
    have hmap := find?_map_pres (q := fun cd => cd.groupID = g ∧ cd.artifactID = a)
      (f := fun x => { x with version := (⟨expandLoop
        (setPropList (inheritParent cpom (processSimple ppom)).properties
          "project.version" (inheritParent cpom (processSimple ppom)).version)
        5 x.version.data⟩ : String) }) (fun x => rfl) _ d2 hd2
    refine ⟨{ d2 with version := (⟨expandLoop
      (setPropList (inheritParent cpom (processSimple ppom)).properties
        "project.version" (inheritParent cpom (processSimple ppom)).version)
      5 d2.version.data⟩ : String) }, ?_, hd2g, hd2a⟩
    rw [POM.findDependency, processSimple_dm, dmExpandAll]
    exact hmap

def c5par : MavenDep := ⟨"pg", "pa", "2.0", "", "", ""⟩

/-- The child document: empty groupId/version, a parent coordinate, one
managed dependency whose version is `${project.version}`. -/
def c5cpom : POM :=
  ⟨"", "ca", "", "jar", some c5par, [], [],
    [⟨"g", "a", "${project.version}", "", "", ""⟩]⟩

/-- The parent document: no parent of its own, one managed dependency. -/
def c5ppom : POM :=
  ⟨"pg", "pa", "2.0", "pom", none, [], [], [⟨"g2", "a2", "9", "", "", ""⟩]⟩

def c5fetch : String → String → String → Option POM := fun g a v =>
  if g = "cg" ∧ a = "ca" ∧ v = "1.0" then some c5cpom
  else if g = "pg" ∧ a = "pa" ∧ v = "2.0" then some c5ppom
  else none

/-- Witness for C5 at the concrete parent/child pair. -/
theorem claim_C5_witness :
    ∃ pomR cacheR,
      GetPOM c5fetch 2 [] "cg" "ca" "1.0" = .ok (pomR, cacheR) ∧
      pomR.groupID = c5ppom.groupID ∧
      pomR.version = c5ppom.version ∧
      pomR.GetProperty "project.version" = some c5ppom.version ∧
      (∀ g a d, c5cpom.dependencyManagement.find?
          (fun cd => cd.groupID = g ∧ cd.artifactID = a) = some d →
        ∃ d', pomR.findDependency g a = some d' ∧
          d'.groupID = d.groupID ∧ d'.artifactID = d.artifactID ∧
          d'.scope = d.scope ∧ d'.version = pomR.Expand d.version) ∧
      (∀ g a d, c5cpom.dependencyManagement.find?
          (fun cd => cd.groupID = g ∧ cd.artifactID = a) = some d →
        d.version = "${project.version}" →
        ∃ d', pomR.findDependency g a = some d' ∧ d'.version = c5ppom.version) ∧
      (∀ g a, c5cpom.dependencyManagement.find?
          (fun cd => cd.groupID = g ∧ cd.artifactID = a) = none →
        (∃ x ∈ c5ppom.dependencyManagement, x.groupID = g ∧ x.artifactID = a) →
        ∃ d', pomR.findDependency g a = some d' ∧
          d'.groupID = g ∧ d'.artifactID = a) :=
  claim_C5_parent_inheritance c5fetch 0 [] "cg" "ca" "1.0" c5cpom c5ppom c5par
    (by decide) (by decide) (by decide) (by decide) (by decide) (by decide)
    rfl rfl (by decide) rfl (by decide) rfl
    (by decide) (by decide) rfl rfl (by decide)

/-! ## Builder dependency resolution (java/java.go)

`Builder.resolveDependency` / `Builder.ResolveDependencies` /
`Builder.getBuildDependencies`.  The repository (`GetPOM`/`GetJAR` against
the local cache and remotes) is abstracted to a `BuilderRepo` oracle
returning the processed POM and the jar path.  `project.Dependency` values
are the `Dep` tree from the loader model; Go mutates them in place, here
the updated value is returned.  The `jars` map-set is a duplicate-free list
in insertion order; Go's map iteration order being unspecified, theorems
about the resulting classpath only use membership. -/

structure BuilderRepo where
  getPOM : String → String → String → Except String POM
  getJAR : String → String → String → Except String String

inductive ResolveErr where
  | repoError (msg : String)
  | unsupportedPackaging (p : String)
  | invalidPackage (gav source : String)
  | outOfFuel
  deriving DecidableEq, Repr

mutual

/-- `Builder.resolveDependency`: skip if already resolved or if the
`group:artifact` key was already visited (first-registered-wins); fetch the
POM; record the jar path for jar-like packaging, none for `pom`, fail
otherwise; then recurse into the POM's declared dependencies. -/
def resolveDependency (repo : BuilderRepo) (fuel : Nat) (dep : Dep)
    (visited : List (String × String)) :
    Except ResolveErr (Dep × List (String × String)) :=
  match fuel with
  | 0 => .error .outOfFuel
  | f + 1 =>
    if dep.path ≠ "" then .ok (dep, visited)
    else
      let key := dep.group ++ ":" ++ dep.artifact
      match visited.lookup key with
      | some _ => .ok (dep, visited)
      | none =>
        let visited1 := (key, dep.version) :: visited
        match repo.getPOM dep.group dep.artifact dep.version with
        | .error e => .error (.repoError e)
        | .ok pom =>
          match (if pom.packaging = "" ∨ pom.packaging = "jar" ∨
                    pom.packaging = "bundle" then
                  match repo.getJAR dep.group dep.artifact dep.version with
                  | .error e => .error (.repoError e)
                  | .ok jarPath => .ok (jarPath : String)
                else if pom.packaging = "pom" then .ok ""
                else .error (.unsupportedPackaging pom.packaging) :
                  Except ResolveErr String) with
          | .error e => .error e
          | .ok jarPath =>
            let dep1 := if jarPath ≠ ""
              then ⟨dep.coordinates, dep.group, dep.artifact, dep.version,
                jarPath, dep.transitive⟩
              else dep
            match resolveChildList repo f dep.coordinates pom.dependencies
                [] visited1 with
            | .error e => .error e
            | .ok (children, visited2) =>
              .ok (⟨dep1.coordinates, dep1.group, dep1.artifact, dep1.version,
                dep1.path, dep1.transitive ++ children⟩, visited2)
termination_by (fuel, 0, 0)

/-- The `for _, pomChild := range pom.Dependencies` loop of
`resolveDependency`: entries with scope `test` or `provided`, or
`optional == "true"`, are skipped before anything else; an entry with an
empty group/artifact/version fails; otherwise a fresh child is created,
resolved, and appended. -/
def resolveChildList (repo : BuilderRepo) (fuel : Nat) (pc : String)
    (children : List MavenDep) (acc : List Dep)
    (visited : List (String × String)) :
    Except ResolveErr (List Dep × List (String × String)) :=
  match children with
  | [] => .ok (acc, visited)
  | pomChild :: rest =>
    if pomChild.scope = "test" ∨ pomChild.scope = "provided" ∨
        pomChild.optional = "true" then
      resolveChildList repo fuel pc rest acc visited
    else
      let gav := GAV pomChild.groupID pomChild.artifactID pomChild.version
      if pomChild.groupID = "" ∨ pomChild.artifactID = "" ∨
          pomChild.version = "" then
        .error (.invalidPackage gav pc)
      else
        match resolveDependency repo fuel
            ⟨gav, pomChild.groupID, pomChild.artifactID, pomChild.version,
              "", []⟩ visited with
        | .error e => .error e
        | .ok (child1, visited1) =>
          resolveChildList repo fuel pc rest (acc ++ [child1]) visited1
termination_by (fuel, 1, children.length)

end

/-- The loop of `Builder.ResolveDependencies` over a module's declared
dependencies, threading the shared `visited` map. -/
def resolveDepList (repo : BuilderRepo) (fuel : Nat) :
    List Dep → List (String × String) →
    Except ResolveErr (List Dep × List (String × String))
  | [], visited => .ok ([], visited)
  | d :: rest, visited =>
    match resolveDependency repo fuel d visited with
    | .error e => .error e
    | .ok (d1, v1) =>
      match resolveDepList repo fuel rest v1 with
      | .error e => .error e
      | .ok (rest1, v2) => .ok (d1 :: rest1, v2)

/-- `Builder.ResolveDependencies`: fresh `visited` map per call. -/
def ResolveDependencies (repo : BuilderRepo) (fuel : Nat) (deps : List Dep) :
    Except ResolveErr (List Dep) :=
  match resolveDepList repo fuel deps [] with
  | .error e => .error e
  | .ok (deps1, _) => .ok deps1

/-- The builder's view of a module (fields of `project.Module` that
`getModulePackage`/`getModuleJarPath` read). -/
structure MInfo where
  dirAbs : String
  name : String
  group : String
  version : String

/-- `Builder.getModuleJarPath`: `<dir>/build/<name>-<version>.jar`. -/
def getModuleJarPath (minfo : Nat → MInfo) (m : Nat) : String :=
  (minfo m).dirAbs ++ "/build/" ++ (minfo m).name ++ "-" ++
    (minfo m).version ++ ".jar"

/-- `Builder.getModulePackage`: a referenced module as a pre-resolved
package. -/
def getModulePackage (minfo : Nat → MInfo) (ref : Nat) : Dep :=
  ⟨GAV (minfo ref).group (minfo ref).name (minfo ref).version,
    (minfo ref).group, (minfo ref).name, (minfo ref).version,
    getModuleJarPath minfo ref, []⟩

mutual

/-- The `addPkg` closure of `Builder.getBuildDependencies`: `seenDeps` is
keyed by `group:artifact` only; a key hit with a *different* version
returns immediately — the entry is silently evicted and nothing is added
(the version-conflict error in the source is commented out, so `addPkg`
never fails and is modelled as a pure function); a key hit with the same
version only recurses; a fresh key records the version, adds the jar path (if
non-empty) to the set, and recurses into the transitive children. -/
def addPkg (pkg : Dep) (seen : List (String × String)) (jars : List String) :
    List (String × String) × List String :=
  match pkg with
  | ⟨_, group, artifact, version, path, transitive⟩ =>
    let key := group ++ ":" ++ artifact
    match seen.lookup key with
    | some existingVersion =>
      if existingVersion ≠ version then (seen, jars)
      else addPkgList transitive seen jars
    | none =>
      let seen1 := (key, version) :: seen
      let jars1 := if path.length > 0 then
          (if path ∈ jars then jars else jars ++ [path])
        else jars
      addPkgList transitive seen1 jars1

def addPkgList (pkgs : List Dep) (seen : List (String × String))
    (jars : List String) : List (String × String) × List String :=
  match pkgs with
  | [] => (seen, jars)
  | p :: rest =>
    match addPkg p seen jars with
    | (seen1, jars1) => addPkgList rest seen1 jars1

end

inductive BuildDepsErr where
  | refs (e : BuildOrderErr)
  | resolve (e : ResolveErr)
  deriving DecidableEq, Repr

/-- The per-reference body of `getBuildDependencies`: add the module's own
jar, resolve its dependencies, add them. -/
def buildDepsLoop (repo : BuilderRepo) (fuel : Nat) (minfo : Nat → MInfo)
    (deps : Nat → List Dep) :
    List Nat → List (String × String) → List String →
    Except BuildDepsErr (List (String × String) × List String)
  | [], seen, jars => .ok (seen, jars)
  | ref :: rest, seen, jars =>
    match addPkg (getModulePackage minfo ref) seen jars with
    | (seen1, jars1) =>
      match ResolveDependencies repo fuel (deps ref) with
      | .error e => .error (.resolve e)
      | .ok rdeps =>
        match addPkgList rdeps seen1 jars1 with
        | (seen2, jars2) => buildDepsLoop repo fuel minfo deps rest seen2 jars2

/-- `Builder.getBuildDependencies`: resolve the module-reference build
order, resolve and add the module's own dependencies, then each referenced
module's jar and dependencies; return the set of jar paths. -/
def getBuildDependencies (repo : BuilderRepo) (fuel : Nat)
    (nodes : List Nat) (g : Nat → List Nat) (minfo : Nat → MInfo)
    (deps : Nat → List Dep) (m : Nat) : Except BuildDepsErr (List String) :=
  match GetModuleReferencesInBuildOrder nodes g m with
  | .error e => .error (.refs e)
  | .ok refs =>
    match ResolveDependencies repo fuel (deps m) with
    | .error e => .error (.resolve e)
    | .ok mdeps =>
      match addPkgList mdeps [] [] with
      | (seen, jars) =>
        match buildDepsLoop repo fuel minfo deps refs seen jars with
        | .error e => .error e
        | .ok (_, jars2) => .ok jars2

/-! ### Claim C4: first-registered-wins version conflicts -/

/-- Module graph for the C4 scenario: module 0 (M) references module 1 (N). -/
def c4g : Nat → List Nat := fun n => if n = 0 then [1] else []

def c4minfo : Nat → MInfo := fun n =>
  if n = 0 then ⟨"/w/M", "M", "com.x", "1"⟩ else ⟨"/w/N", "N", "com.x", "1"⟩

/-- M declares `g:a:1.0`; N declares `g:a:2.0`. -/
def c4deps : Nat → List Dep := fun n =>
  if n = 0 then [⟨"g:a:1.0", "g", "a", "1.0", "", []⟩]
  else [⟨"g:a:2.0", "g", "a", "2.0", "", []⟩]

/-- A repository where every `g:a` version is a jar with no transitive
dependencies. -/
def c4repo : BuilderRepo where
  getPOM := fun g a v =>
    if g = "g" ∧ a = "a" then .ok ⟨g, a, v, "jar", none, [], [], []⟩
    else .error "no pom"
  getJAR := fun g a v =>
    .ok ("/repo/" ++ g ++ "/" ++ a ++ "/" ++ v ++ "/" ++ a ++ "-" ++ v ++ ".jar")

/-- C4: version conflicts are resolved first-registered-wins and silently.
(i) Generally: when `addPkg` meets a package whose `group:artifact` key is
already in `seenDeps` with a *different* version, it returns the seen-set
and jar-set unchanged and raises no error — the later version contributes
no classpath entry.  (ii) On the spec's example: M declares `g:a:1.0` and
references N which declares `g:a:2.0`; M's effective classpath contains the
1.0 jar and N's module jar but no 2.0 jar, and the computation succeeds. -/
theorem claim_C4_first_registered_wins :
    (∀ (pkg : Dep) (seen : List (String × String)) (jars : List String)
      (v : String),
      seen.lookup (pkg.group ++ ":" ++ pkg.artifact) = some v →
      v ≠ pkg.version →
      addPkg pkg seen jars = (seen, jars)) ∧
    (getBuildDependencies c4repo 3 [0, 1] c4g c4minfo c4deps 0 =
        .ok ["/repo/g/a/1.0/a-1.0.jar", "/w/N/build/N-1.jar"] ∧
      "/repo/g/a/1.0/a-1.0.jar" ∈
        ["/repo/g/a/1.0/a-1.0.jar", "/w/N/build/N-1.jar"] ∧
      "/repo/g/a/2.0/a-2.0.jar" ∉
        ["/repo/g/a/1.0/a-1.0.jar", "/w/N/build/N-1.jar"]) := by
  constructor
  · intro pkg seen jars v hlook hne
    obtain ⟨c, g, a, ver, p, t⟩ := pkg
    rw [addPkg]
    simp only [Dep.group, Dep.artifact, Dep.version] at hlook hne
    rw [hlook]
    simp only []
    rw [if_pos hne]
  · refine ⟨?_, by simp, by simp⟩
    simp [getBuildDependencies, GetModuleReferencesInBuildOrder, visit,
      visitList, ResolveDependencies, resolveDepList, resolveDependency,
      resolveChildList, addPkg, addPkgList, buildDepsLoop, getModulePackage,
      getModuleJarPath, GAV, c4repo, c4g, c4minfo, c4deps, Dep.path,
      Dep.group, Dep.artifact, Dep.version, Dep.coordinates, Dep.transitive,
      List.lookup]
    decide

/-- Witness for C4's general conjunct: a seen-set holding `g:a ↦ 1.0` evicts
an incoming `g:a:2.0` without touching the jar set. -/
theorem claim_C4_witness :
    List.lookup ((⟨"g:a:2.0", "g", "a", "2.0", "/j2", []⟩ : Dep).group ++ ":" ++
        (⟨"g:a:2.0", "g", "a", "2.0", "/j2", []⟩ : Dep).artifact)
      [("g:a", "1.0")] = some "1.0" ∧
    addPkg ⟨"g:a:2.0", "g", "a", "2.0", "/j2", []⟩ [("g:a", "1.0")] ["/j1"] =
      ([("g:a", "1.0")], ["/j1"]) :=
  ⟨by simp [Dep.group, Dep.artifact, List.lookup],
    claim_C4_first_registered_wins.1 _ _ _ "1.0"
      (by simp [Dep.group, Dep.artifact, List.lookup])
      (by simp [Dep.version])⟩

/-! ### Claim C7: scope and optional filtering in the transitive walk -/

/-- Dropping a `test`/`provided`/`optional` entry anywhere in a POM's
declared-dependency list leaves the child-resolution loop's behaviour
(result, visited set, errors) unchanged: the entry contributes nothing. -/
theorem resolveChildList_skips_filtered (repo : BuilderRepo) (fuel : Nat)
    (pc : String) (bad : MavenDep)
    (hbad : bad.scope = "test" ∨ bad.scope = "provided" ∨
      bad.optional = "true") :
    ∀ (l1 l2 : List MavenDep) (acc : List Dep)
      (visited : List (String × String)),
      resolveChildList repo fuel pc (l1 ++ bad :: l2) acc visited =
        resolveChildList repo fuel pc (l1 ++ l2) acc visited := by
  intro l1
  induction l1 with
  | nil =>
    intro l2 acc visited
    simp only [List.nil_append]
    rw [resolveChildList]
    rw [if_pos hbad]
  | cons c cs ih =>
    intro l2 acc visited
    simp only [List.cons_append]
    rw [resolveChildList]
    conv_rhs => rw [resolveChildList]
    by_cases hskip : c.scope = "test" ∨ c.scope = "provided" ∨
      c.optional = "true"
    · rw [if_pos hskip, if_pos hskip]
      exact ih l2 acc visited
    · rw [if_neg hskip, if_neg hskip]
      simp only []
      by_cases hempty : c.groupID = "" ∨ c.artifactID = "" ∨ c.version = ""
      · rw [if_pos hempty, if_pos hempty]
      · rw [if_neg hempty, if_neg hempty]
        cases hres : resolveDependency repo fuel
            ⟨GAV c.groupID c.artifactID c.version, c.groupID, c.artifactID,
              c.version, "", []⟩ visited with
        | error e => rfl
        | ok pr =>
          obtain ⟨child1, visited1⟩ := pr
          simp only []
          exact ih l2 (acc ++ [child1]) visited1

/-- Repository for the C7 example: `r:r:1` declares one runtime dependency
`rd:rd:1` and one test-scoped dependency `td:td:1`. -/
def c7repo : BuilderRepo where
  getPOM := fun g _ v =>
    if g = "r" then
      .ok ⟨"r", "r", v, "jar", none, [],
        [⟨"rd", "rd", "1", "", "", ""⟩, ⟨"td", "td", "1", "", "test", ""⟩], []⟩
    else if g = "rd" then .ok ⟨"rd", "rd", v, "jar", none, [], [], []⟩
    else .error "no pom"
  getJAR := fun g a v =>
    .ok ("/repo/" ++ g ++ "/" ++ a ++ "/" ++ v ++ "/" ++ a ++ "-" ++ v ++ ".jar")

/-- C7: the transitive walk filters by scope and optionality.  (i) Any
declared entry with scope `test` or `provided` or `optional = "true"` is
dropped before recursion and contributes nothing to the resolved tree.
(ii) On the example: a POM with one runtime dependency and one test-scoped
dependency yields exactly one resolved transitive jar path. -/
theorem claim_C7_scope_filtering :
    (∀ (repo : BuilderRepo) (fuel : Nat) (pc : String) (bad : MavenDep)
      (l1 l2 : List MavenDep) (acc : List Dep)
      (visited : List (String × String)),
      (bad.scope = "test" ∨ bad.scope = "provided" ∨ bad.optional = "true") →
      resolveChildList repo fuel pc (l1 ++ bad :: l2) acc visited =
        resolveChildList repo fuel pc (l1 ++ l2) acc visited) ∧
    (∃ d v, resolveDependency c7repo 3 ⟨"r:r:1", "r", "r", "1", "", []⟩ [] =
        .ok (d, v) ∧
      d.transitive.map Dep.path = ["/repo/rd/rd/1/rd-1.jar"] ∧
      d.transitive.length = 1) := by
  constructor
  · intro repo fuel pc bad l1 l2 acc visited hbad
    exact resolveChildList_skips_filtered repo fuel pc bad hbad l1 l2 acc visited
  · refine ⟨⟨"r:r:1", "r", "r", "1", "/repo/r/r/1/r-1.jar",
      [⟨"rd:rd:1", "rd", "rd", "1", "/repo/rd/rd/1/rd-1.jar", []⟩]⟩,
      [("rd:rd", "1"), ("r:r", "1")], ?_, by simp [Dep.path, Dep.transitive],
      by simp [Dep.transitive]⟩
    simp [resolveDependency, resolveChildList, c7repo, GAV, Dep.path,
      Dep.group, Dep.artifact, Dep.version, Dep.coordinates, Dep.transitive,
      List.lookup]

/-- Witness for C7's general conjunct: dropping a test-scoped entry in a
concrete run. -/
theorem claim_C7_witness :
    ((⟨"td", "td", "1", "", "test", ""⟩ : MavenDep).scope = "test" ∨
      (⟨"td", "td", "1", "", "test", ""⟩ : MavenDep).scope = "provided" ∨
      (⟨"td", "td", "1", "", "test", ""⟩ : MavenDep).optional = "true") ∧
    resolveChildList c7repo 2 "r:r:1"
        ([] ++ ⟨"td", "td", "1", "", "test", ""⟩ :: []) [] [] =
      resolveChildList c7repo 2 "r:r:1" ([] ++ []) [] [] :=
  ⟨.inl rfl,
    claim_C7_scope_filtering.1 c7repo 2 "r:r:1" _ [] [] [] [] (.inl rfl)⟩

/-! ## Builder.Build fingerprint gate (java/java.go)

The digest is SHA-1 over: the module file bytes; for each source file its
module-relative path followed by the modification time as 8 little-endian
bytes; the same for each matched resource file.  SHA-1 and the final hex
encoding are injective renderings of the fed byte stream, so the model's
digest *is* the byte stream.  Stages after the staleness check can fail
(subprocesses, filesystem); they are a `failAt` oracle checked in the
code's order.  Failures *before* the staleness check (finding files,
reading the stored hash) abort with the world untouched and are outside
the gate.  Crucially, `os.RemoveAll(buildDir)` runs right after the
staleness check and removes `build/build.sha1` itself — the previously
stored digest is deleted, not preserved, by a failed rebuild. -/

/-- `binary.LittleEndian.PutUint64` of a modification time. -/
def le64 (t : Nat) : List Nat :=
  [t % 256, t / 2 ^ 8 % 256, t / 2 ^ 16 % 256, t / 2 ^ 24 % 256,
    t / 2 ^ 32 % 256, t / 2 ^ 40 % 256, t / 2 ^ 48 % 256, t / 2 ^ 56 % 256]

structure SourceFile where
  path : String
  modTime : Nat
  deriving DecidableEq, Repr

/-- The bytes of a path string fed to the hasher (code points; identical to
UTF-8 for the ASCII paths involved). -/
def strBytes (s : String) : List Nat := s.data.map (fun c => c.toNat)

/-- The byte stream hashed by `Builder.Build`. -/
def fingerprint (moduleFileBytes : List Nat)
    (sources embeds : List SourceFile) : List Nat :=
  moduleFileBytes ++
    (sources.map (fun s => strBytes s.path ++ le64 s.modTime)).flatten ++
    (embeds.map (fun s => strBytes s.path ++ le64 s.modTime)).flatten

inductive BuildStage where
  | removeBuildDir
  | mkdirs
  | getRefs
  | getDeps
  | compile
  | copyEmbeds
  | buildJar
  | writePOM
  | writeHash
  deriving DecidableEq, Repr

inductive BuildOutcome where
  | upToDate
  | built
  | failed (s : BuildStage)
  deriving DecidableEq, Repr

/-- The world seen by one `Build` call: the stored digest (contents of
`build/build.sha1`; `none` when the file is missing — `ReadFileAsString`
returns `""` then, which never equals a 40-character hex digest) and the
failure oracle for the build stages. -/
structure BuildWorld where
  storedHash : Option (List Nat)
  failAt : BuildStage → Bool

/-- `Builder.Build` from the staleness check on: compare the fingerprint
with the stored digest; if equal, report up to date and do nothing else;
otherwise remove the build directory (which deletes the stored digest
file), run the build stages in order, and persist the new digest only
after every stage succeeded. -/
def Build (moduleFileBytes : List Nat) (sources embeds : List SourceFile)
    (w : BuildWorld) : BuildOutcome × BuildWorld :=
  let fp := fingerprint moduleFileBytes sources embeds
  if w.storedHash = some fp then (.upToDate, w)
  else if w.failAt .removeBuildDir then (.failed .removeBuildDir, w)
  else
    let w1 : BuildWorld := { w with storedHash := none }
    if w1.failAt .mkdirs then (.failed .mkdirs, w1)
    else if w1.failAt .getRefs then (.failed .getRefs, w1)
    else if w1.failAt .getDeps then (.failed .getDeps, w1)
    else if sources ≠ [] ∧ w1.failAt .compile then (.failed .compile, w1)
    else if w1.failAt .copyEmbeds then (.failed .copyEmbeds, w1)
    else if w1.failAt .buildJar then (.failed .buildJar, w1)
    else if w1.failAt .writePOM then (.failed .writePOM, w1)
    else if w1.failAt .writeHash then (.failed .writeHash, w1)
    else (.built, { w1 with storedHash := some fp })

/-- A stale build that fails mid-way (here: at compilation) does not leave
the previously stored digest in place: `os.RemoveAll(buildDir)` has already
deleted `build/build.sha1`, so the stored digest after the failed run is
`none`, not the old `some [9]`. -/
theorem claim_C8_counterexample :
    (Build [1, 2] [⟨"A.java", 100⟩] [] ⟨some [9], fun s => s == BuildStage.compile⟩).1
        = .failed .compile ∧
    (⟨some [9], fun s => s == BuildStage.compile⟩ : BuildWorld).storedHash = some [9] ∧
    (Build [1, 2] [⟨"A.java", 100⟩] [] ⟨some [9], fun s => s == BuildStage.compile⟩).2.storedHash
        = none := by
  refine ⟨?_, rfl, ?_⟩ <;> decide

set_option maxHeartbeats 1600000 in
/-- C8 (amended): the build gate skips work iff the fingerprint matches,
and the new digest is persisted only by a fully successful build.  When the
digest equals the stored one the build reports up to date and changes
nothing.  A build that fails never holds the new digest: a failure of the
initial build-directory removal leaves the world untouched (old digest
still stored), and a failure at any later stage leaves no stored digest at
all, because the removal deleted the stored digest together with the build
directory.  A successful build ends with the new digest stored. -/
theorem claim_C8_build_gate (mfb : List Nat) (sources embeds : List SourceFile)
    (w : BuildWorld) :
    ((Build mfb sources embeds w).1 = .upToDate
        ↔ w.storedHash = some (fingerprint mfb sources embeds)) ∧
    (w.storedHash = some (fingerprint mfb sources embeds)
        → Build mfb sources embeds w = (.upToDate, w)) ∧
    (∀ s, (Build mfb sources embeds w).1 = .failed s
        → (Build mfb sources embeds w).2.storedHash ≠ some (fingerprint mfb sources embeds)
          ∧ (s = .removeBuildDir → (Build mfb sources embeds w).2 = w)
          ∧ (s ≠ .removeBuildDir → (Build mfb sources embeds w).2.storedHash = none)) ∧
    ((Build mfb sources embeds w).1 = .built
        → (Build mfb sources embeds w).2.storedHash = some (fingerprint mfb sources embeds)) := by
  refine ⟨?_, ?_, ?_, ?_⟩
  · simp only [Build]
    split
    · simp_all
    · repeat' split
      all_goals simp_all
  · intro h
    simp only [Build, if_pos h]
  · intro s
    simp only [Build]
    split
    · simp_all
    · repeat' split
      all_goals intro h <;> simp_all
      all_goals (intro hc; subst h; exact absurd hc (by decide))
  · simp only [Build]
    split
    · simp_all
    · repeat' split
      all_goals simp_all

theorem claim_C8_witness :
    Build [] [] [] ⟨some [], fun _ => false⟩ = (.upToDate, ⟨some [], fun _ => false⟩) ∧
    (Build [] [] [] ⟨none, fun _ => false⟩).2.storedHash = some (fingerprint [] [] []) ∧
    ((Build [5] [] [] ⟨some [9], fun s => s == BuildStage.buildJar⟩).2.storedHash
        ≠ some (fingerprint [5] [] []) ∧
      (BuildStage.buildJar = .removeBuildDir
          → (Build [5] [] [] ⟨some [9], fun s => s == BuildStage.buildJar⟩).2
              = ⟨some [9], fun s => s == BuildStage.buildJar⟩) ∧
      (BuildStage.buildJar ≠ .removeBuildDir
          → (Build [5] [] [] ⟨some [9], fun s => s == BuildStage.buildJar⟩).2.storedHash
              = none)) := by
  refine ⟨(claim_C8_build_gate [] [] [] _).2.1 (by decide),
    (claim_C8_build_gate [] [] [] _).2.2.2 (by decide),
    (claim_C8_build_gate [5] [] [] _).2.2.1 .buildJar (by decide)⟩

/-! ## LocalRepository.getFile (maven/repo.go)

The artifact directory is the base directory (with `~` already expanded to
the home directory, here folded into `root`) joined with the group id with
dots replaced by slashes, the artifact id and the version.  `getFile`
returns the cached path untouched when the file exists; otherwise it
creates the directory, opens the destination file (which from then on
exists, possibly empty), and tries each remote in declared order, keeping
the error of the last attempt and breaking at the first success; if the
final error is non-nil it closes and deletes the partial file and returns
an aggregated error naming the path.  Directory-creation and open failures
abort earlier and are not modelled; the filesystem is an `exists` oracle
`String → Bool` and each remote a success oracle. -/

def dotsToSlashes (s : String) : String :=
  ⟨s.data.map (fun c => if c = '.' then '/' else c)⟩

def artifactDir (root groupID artifactID version : String) : String :=
  root ++ "/" ++ dotsToSlashes groupID ++ "/" ++ artifactID ++ "/" ++ version

/-- The remote loop with Go's `err` threading: `errNil` is whether `err`
is currently nil (true right after the successful `OpenFile`); each
attempted remote overwrites it, and the loop breaks at the first success.
Returns (final `err == nil`, remotes attempted in order). -/
def fetchAttempts (fetchOK : String → Bool) : List String → Bool → Bool × List String
  | [], errNil => (errNil, [])
  | r :: rest, _ =>
    if fetchOK r then (true, [r])
    else
      let p := fetchAttempts fetchOK rest false
      (p.1, r :: p.2)

/-- `LocalRepository.getFile`: result (error message or returned path),
the file-existence oracle afterwards, and the remotes attempted. -/
def getFile (root groupID artifactID version file : String)
    (exists0 : String → Bool) (fetchOK : String → Bool) (remotes : List String) :
    Except String String × (String → Bool) × List String :=
  let artifactPath := artifactDir root groupID artifactID version ++ "/" ++ file
  if exists0 artifactPath then (.ok artifactPath, exists0, [])
  else
    let p := fetchAttempts fetchOK remotes true
    if p.1 then
      (.ok artifactPath, fun q => if q = artifactPath then true else exists0 q, p.2)
    else
      (.error ("failed to fetch " ++ artifactPath ++ " from any remote"),
        fun q => if q = artifactPath then false else exists0 q, p.2)

theorem fetchAttempts_all_fail (fetchOK : String → Bool) :
    ∀ l : List String, l ≠ [] → (∀ r ∈ l, fetchOK r = false) →
      ∀ b, fetchAttempts fetchOK l b = (false, l) := by
  intro l
  induction l with
  | nil => intro h; exact absurd rfl h
  | cons r rest ih =>
    intro _ hall b
    simp only [fetchAttempts, hall r (List.mem_cons_self r rest)]
    cases rest with
    | nil => simp [fetchAttempts]
    | cons r2 rest2 =>
      have := ih (by simp) (fun x hx => hall x (List.mem_cons_of_mem r hx)) false
      simp [this]

theorem fetchAttempts_first_success (fetchOK : String → Bool) :
    ∀ (l1 : List String) (r : String) (l2 : List String) (b : Bool),
      (∀ x ∈ l1, fetchOK x = false) → fetchOK r = true →
      fetchAttempts fetchOK (l1 ++ r :: l2) b = (true, l1 ++ [r]) := by
  intro l1
  induction l1 with
  | nil => intro r l2 b _ hr; simp [fetchAttempts, hr]
  | cons x rest ih =>
    intro r l2 b hall hr
    simp only [List.cons_append, fetchAttempts, hall x (List.mem_cons_self x rest)]
    have := ih r l2 false (fun y hy => hall y (List.mem_cons_of_mem x hy)) hr
    simp [this]

/-- C9: artifact-cache lookup.  (1) If the file already exists at its local
cache path, that path is returned with no remote attempted and the
filesystem untouched.  (2) Otherwise the remotes are tried in declared
order and stop at the first success: exactly the failing prefix and the
first succeeding remote are attempted, the path is returned, and the file
exists afterwards.  (3) If there is at least one remote and every remote
fails, an aggregated error naming the path is returned, all remotes were
attempted, and the partially written file is deleted (it does not exist
afterwards). -/
theorem claim_C9_getFile (root g a v file : String) (exists0 fetchOK : String → Bool)
    (remotes : List String) :
    (exists0 (artifactDir root g a v ++ "/" ++ file) = true
        → getFile root g a v file exists0 fetchOK remotes
            = (.ok (artifactDir root g a v ++ "/" ++ file), exists0, [])) ∧
    (∀ l1 r l2, remotes = l1 ++ r :: l2 → (∀ x ∈ l1, fetchOK x = false)
        → fetchOK r = true
        → exists0 (artifactDir root g a v ++ "/" ++ file) = false
        → (getFile root g a v file exists0 fetchOK remotes).1
              = .ok (artifactDir root g a v ++ "/" ++ file)
          ∧ (getFile root g a v file exists0 fetchOK remotes).2.2 = l1 ++ [r]
          ∧ (getFile root g a v file exists0 fetchOK remotes).2.1
                (artifactDir root g a v ++ "/" ++ file) = true) ∧
    (remotes ≠ [] → (∀ x ∈ remotes, fetchOK x = false)
        → exists0 (artifactDir root g a v ++ "/" ++ file) = false
        → (getFile root g a v file exists0 fetchOK remotes).1
              = .error ("failed to fetch " ++ (artifactDir root g a v ++ "/" ++ file)
                  ++ " from any remote")
          ∧ (getFile root g a v file exists0 fetchOK remotes).2.1
                (artifactDir root g a v ++ "/" ++ file) = false
          ∧ (getFile root g a v file exists0 fetchOK remotes).2.2 = remotes) := by
  refine ⟨?_, ?_, ?_⟩
  · intro h
    simp only [getFile]
    rw [if_pos h]
  · intro l1 r l2 hrem hall hr hne
    subst hrem
    simp only [getFile]
    rw [if_neg (by simp [hne])]
    have hfa := fetchAttempts_first_success fetchOK l1 r l2 true hall hr
    simp only [hfa]
    exact ⟨rfl, rfl, by simp⟩
  · intro hnil hall hne
    simp only [getFile]
    rw [if_neg (by simp [hne])]
    have hfa := fetchAttempts_all_fail fetchOK remotes hnil hall true
    simp only [hfa]
    exact ⟨rfl, by simp, rfl⟩

theorem claim_C9_witness :
    (getFile "/r" "com.x" "art" "1" "art-1.jar" (fun _ => true) (fun _ => false) ["r1"]
        = (.ok "/r/com/x/art/1/art-1.jar", fun _ => true, [])) ∧
    ((getFile "/r" "com.x" "art" "1" "art-1.jar" (fun _ => false) (fun u => u == "r2")
          ["r1", "r2", "r3"]).1 = .ok "/r/com/x/art/1/art-1.jar"
      ∧ (getFile "/r" "com.x" "art" "1" "art-1.jar" (fun _ => false) (fun u => u == "r2")
          ["r1", "r2", "r3"]).2.2 = ["r1", "r2"]
      ∧ (getFile "/r" "com.x" "art" "1" "art-1.jar" (fun _ => false) (fun u => u == "r2")
          ["r1", "r2", "r3"]).2.1 "/r/com/x/art/1/art-1.jar" = true) ∧
    ((getFile "/r" "com.x" "art" "1" "art-1.jar" (fun _ => false) (fun _ => false)
          ["r1"]).1 = .error "failed to fetch /r/com/x/art/1/art-1.jar from any remote"
      ∧ (getFile "/r" "com.x" "art" "1" "art-1.jar" (fun _ => false) (fun _ => false)
          ["r1"]).2.1 "/r/com/x/art/1/art-1.jar" = false
      ∧ (getFile "/r" "com.x" "art" "1" "art-1.jar" (fun _ => false) (fun _ => false)
          ["r1"]).2.2 = ["r1"]) := by
  refine ⟨(claim_C9_getFile "/r" "com.x" "art" "1" "art-1.jar" (fun _ => true)
      (fun _ => false) ["r1"]).1 rfl,
    (claim_C9_getFile "/r" "com.x" "art" "1" "art-1.jar" (fun _ => false)
      (fun u => u == "r2") ["r1", "r2", "r3"]).2.1 ["r1"] "r2" ["r3"] rfl
      (by decide) rfl rfl,
    (claim_C9_getFile "/r" "com.x" "art" "1" "art-1.jar" (fun _ => false)
      (fun _ => false) ["r1"]).2.2 (by decide) (by decide) rfl⟩
